import Mathlib

/-!
Verification of the budget-aggregator pipeline (aggregate.js and src/index.js).

The JavaScript sources are shallowly embedded:
* strings are `String`/`List Char` (JS `toLowerCase` is modelled on the ASCII
  range, which is exact for the constant search keywords used by the code;
  JS string comparison is by UTF-16 code units, modelled here by `Char.toNat`,
  which agrees on the Basic Multilingual Plane);
* JS numbers are modelled by `JSNum` (NaN, signed infinity, or an exact
  decimal `Dec`); double rounding is not modelled, which is exact for every
  arithmetic fact stated below, since all numbers this pipeline handles are
  decimal literals and their sums;
* `parseFloat` follows the ECMAScript definition: strip leading whitespace,
  then take the longest prefix that is a valid StrDecimalLiteral
  (sign, `Infinity`, or decimal digits with optional fraction and exponent);
* the effectful pipeline bodies (`aggregateBudgets` in aggregate.js and the
  `aggregate_budgets` tool handler in src/index.js) are embedded as
  deterministic trace builders over an environment that supplies the remote
  data, the parsed language-model responses (with `none` standing for a
  response that fails JSON parsing and hence throws), and the user's answers.
-/

/-- ECMAScript whitespace characters relevant to `trim`/`parseFloat`. -/
def isWS (c : Char) : Bool :=
  c == ' ' || c == '\t' || c == '\n' || c == '\r' ||
  c.toNat == 11 || c.toNat == 12 || c.toNat == 160 || c.toNat == 65279

/-- ASCII lowercasing, modelling `String.prototype.toLowerCase` on the
characters that matter for the keyword search. -/
def asciiLower (c : Char) : Char :=
  if 65 ≤ c.toNat ∧ c.toNat ≤ 90 then Char.ofNat (c.toNat + 32) else c

def jsToLowerL (cs : List Char) : List Char := cs.map asciiLower

def jsToLower (s : String) : String := String.mk (jsToLowerL s.data)

/-- `begins p l` holds when `p` is a prefix of `l` (cell-by-cell equality). -/
def begins : List Char → List Char → Bool
  | [], _ => true
  | _ :: _, [] => false
  | p :: ps, l :: ls => p == l && begins ps ls

/-- `containsSub hay needle`: JS `String.prototype.includes`. -/
def containsSub : List Char → List Char → Bool
  | [], needle => needle.isEmpty
  | c :: rest, needle => begins needle (c :: rest) || containsSub rest needle

def jsTrimStartL (cs : List Char) : List Char := cs.dropWhile isWS

def jsTrimL (cs : List Char) : List Char :=
  ((cs.dropWhile isWS).reverse.dropWhile isWS).reverse

/-- JS `String.prototype.trim`. -/
def jsTrim (s : String) : String := String.mk (jsTrimL s.data)

/-- An exact decimal number `n / 10 ^ e`.  Every number this pipeline
produces (decimal-literal values and their sums) has this form. -/
structure Dec where
  n : ℤ
  e : ℕ
deriving DecidableEq

/-- The rational value of a `Dec`. -/
def Dec.toRat (d : Dec) : ℚ := (d.n : ℚ) / 10 ^ d.e

/-- Exact addition of decimals. -/
def Dec.add (a b : Dec) : Dec :=
  ⟨a.n * 10 ^ (max a.e b.e - a.e) + b.n * 10 ^ (max a.e b.e - b.e), max a.e b.e⟩

/-- A JavaScript number as far as this pipeline can observe it:
NaN, a signed infinity (`true` = positive), or an exact decimal value. -/
inductive JSNum where
  | nan : JSNum
  | inf : Bool → JSNum
  | fin : Dec → JSNum
deriving DecidableEq

/-- IEEE-style addition on `JSNum` (exact on the finite values). -/
def JSNum.add : JSNum → JSNum → JSNum
  | nan, _ => nan
  | _, nan => nan
  | inf b, inf c => if b = c then inf b else nan
  | inf b, fin _ => inf b
  | fin _, inf c => inf c
  | fin a, fin b => fin (a.add b)

def JSNum.isFinite : JSNum → Bool
  | fin _ => true
  | _ => false

/-- JS `x || 0` evaluated at a number `x`: NaN and 0 are falsy. -/
def JSNum.orZero : JSNum → JSNum
  | nan => fin ⟨0, 0⟩
  | inf b => inf b
  | fin q => fin q

def isDigitC (c : Char) : Bool := 48 ≤ c.toNat && c.toNat ≤ 57

def digitsNat (ds : List Char) : Nat := ds.foldl (fun a c => 10 * a + (c.toNat - 48)) 0

/-- Split an optional leading sign; `true` means negative. -/
def splitSign (cs : List Char) : Bool × List Char :=
  match cs with
  | [] => (false, [])
  | c :: r => if c = '+' then (false, r) else if c = '-' then (true, r) else (false, c :: r)

/-- Split an optional fraction part `. digits` off the front. -/
def litFrac (cs : List Char) : List Char × List Char :=
  match cs with
  | [] => ([], [])
  | c :: r =>
    if c = '.' then (r.takeWhile isDigitC, r.drop (r.takeWhile isDigitC).length)
    else ([], c :: r)

/-- The unsigned part of a StrDecimalLiteral after the sign: decimal digits
with optional fraction and optional exponent, all input consumed exactly;
returns the (unsigned) decimal value. -/
def litBody (cs1 : List Char) : Option Dec :=
  let d1 := cs1.takeWhile isDigitC
  let r1 := cs1.drop d1.length
  let fr := litFrac r1
  let d2 := fr.1
  let r2 := fr.2
  if d1.isEmpty && d2.isEmpty then none
  else
    let mant : Dec := ⟨(digitsNat d1 : ℤ) * 10 ^ d2.length + (digitsNat d2 : ℤ), d2.length⟩
    match r2 with
    | [] => some mant
    | e :: r3 =>
      if e == 'e' || e == 'E' then
        let es2 := splitSign r3
        let ed := es2.2.takeWhile isDigitC
        if ed.isEmpty || !(es2.2.drop ed.length).isEmpty then none
        else
          if es2.1 then some ⟨mant.n, mant.e + digitsNat ed⟩
          else some ⟨mant.n * 10 ^ digitsNat ed, mant.e⟩
      else none

/-- Parse a whole character list as an ECMAScript StrDecimalLiteral, returning
its value, or `none` when the list is not exactly such a literal. -/
def litParse (cs : List Char) : Option JSNum :=
  let sgn := splitSign cs
  if sgn.2 = "Infinity".data then some (JSNum.inf (!sgn.1))
  else (litBody sgn.2).map (fun d => if sgn.1 then JSNum.fin ⟨-d.n, d.e⟩ else JSNum.fin d)

/-- The longest prefix of `cs` that is a valid StrDecimalLiteral, if any. -/
def maxLitPrefix (cs : List Char) : Option (List Char) :=
  (List.range (cs.length + 1)).foldl
    (fun acc k => if (litParse (cs.take k)).isSome then some (cs.take k) else acc) none

/-- ECMAScript `parseFloat`: strip leading whitespace, then evaluate the
longest prefix that is a valid decimal literal; NaN when there is none. -/
def parseFloatJS (s : String) : JSNum :=
  match maxLitPrefix (jsTrimStartL s.data) with
  | none => JSNum.nan
  | some l => (litParse l).getD JSNum.nan

/-- Predicate of the heuristic category-column scan in `getMapping`:
the lowercased header contains `"category"`. -/
def catP (h : String) : Bool := containsSub (jsToLowerL h.data) "category".data

/-- Predicate of the heuristic amount-column scan in `getMapping`:
the lowercased header contains `"cost"`, `"amount"`, or `"price"`. -/
def amtP (h : String) : Bool :=
  containsSub (jsToLowerL h.data) "cost".data ||
  containsSub (jsToLowerL h.data) "amount".data ||
  containsSub (jsToLowerL h.data) "price".data

/-- The `headers.forEach((header, i) => if p then idx = i)` loop: the
accumulator is overwritten at every index whose header satisfies `p`, so the
last hit wins. -/
def lastHit (p : String → Bool) : Nat → List String → Option Nat → Option Nat
  | _, [], acc => acc
  | n, h :: t, acc => lastHit p (n + 1) t (if p h then some n else acc)

/-- The heuristic branch of `getMapping` (aggregate.js, lines 41-49): one
left-to-right scan that overwrites `categoryIndex`/`amountIndex` on each
qualifying header; embedded as two independent scans, which compute the same
two component values. -/
def getMappingHeuristic (headers : List String) : Option Nat × Option Nat :=
  (lastHit catP 0 headers none, lastHit amtP 0 headers none)

/-- The per-row validation and extraction step of the aggregation loops
(aggregate.js lines 107-117, src/index.js lines 111-121): `none` means the
row is skipped, `some` is the expense record it contributes. -/
def rowExpense (catIdx amtIdx : Option Nat) (row : List String) : Option (String × JSNum) :=
  match catIdx, amtIdx with
  | some c, some a =>
    if row.length ≤ max c a then none
    else
      let category := jsTrim (row.getD c "")
      let amountStr := row.getD a ""
      if category = "" ∨ amountStr = "" then none
      else
        let amount := parseFloatJS amountStr
        if amount = JSNum.nan then none else some (category, amount)
  | _, _ => none

example : parseFloatJS "10" = JSNum.fin ⟨10, 0⟩ := by decide
example : parseFloatJS "5.50" = JSNum.fin ⟨550, 2⟩ := by decide
example : (Dec.toRat ⟨550, 2⟩) = 11 / 2 := by norm_num [Dec.toRat]
example : parseFloatJS "20 USD" = JSNum.fin ⟨20, 0⟩ := by decide
example : parseFloatJS "$20" = JSNum.nan := by decide
example : parseFloatJS "Infinity" = JSNum.inf true := by decide
example : parseFloatJS "" = JSNum.nan := by decide
example : parseFloatJS " -2.5e1" = JSNum.fin ⟨-250, 1⟩ := by decide
example : getMappingHeuristic ["Item", "Category", "Cost"] = (some 1, some 2) := by decide
example : getMappingHeuristic ["Desc", "Type", "Price"] = (none, some 2) := by decide
example : rowExpense (some 0) (some 1) ["A", "Infinity"] = some ("A", JSNum.inf true) := by decide
example : rowExpense (some 1) (some 2) ["x"] = none := by decide

/-- Strict lexicographic comparison of character lists by code unit,
modelling JS `<` on strings. -/
def lexLt : List Char → List Char → Bool
  | [], [] => false
  | [], _ :: _ => true
  | _ :: _, [] => false
  | a :: as, b :: bs =>
    if a.toNat < b.toNat then true
    else if b.toNat < a.toNat then false
    else lexLt as bs

def lexLe (a b : List Char) : Bool := !lexLt b a

/-- The key on which the default `Array.prototype.sort()` compares an entry
`[category, amount]`: its stringification `category + "," + String(amount)`.
The JS rendering of a number is not determined by this repository's code; it
is supplied as the parameter `numStr`. -/
def entryKey (numStr : JSNum → String) (en : String × JSNum) : List Char :=
  en.1.data ++ ',' :: (numStr en.2).data

/-- Stable insertion into a list sorted by `key`. -/
def insertByKey {α : Type} (key : α → List Char) (x : α) : List α → List α
  | [] => [x]
  | y :: ys => if lexLe (key x) (key y) then x :: y :: ys else y :: insertByKey key x ys

/-- Stable sort by `key`, modelling `Array.prototype.sort()` with its default
string comparator. -/
def sortByKey {α : Type} (key : α → List Char) (l : List α) : List α :=
  l.foldr (insertByKey key) []

/-- JSON-object property lookup `obj[k]`. -/
def assocFind : List (String × String) → String → Option String
  | [], _ => none
  | (k, v) :: rest, c => if k = c then some v else assocFind rest c

/-- `categoryMapping[exp.category] || exp.category` (aggregate.js line 154,
src/index.js line 144): JS `||` falls back not only when the key is absent
but also when the mapped value is the empty string, which is falsy. -/
def normalizeCat (mp : List (String × String)) (c : String) : String :=
  match assocFind mp c with
  | some v => if v = "" then c else v
  | none => c

/-- `categoryMap.set(normalized, (categoryMap.get(normalized) || 0) + amount)`
on an insertion-ordered map, represented as an association list. -/
def bump : List (String × JSNum) → String → JSNum → List (String × JSNum)
  | [], k, v => [(k, (JSNum.fin ⟨0, 0⟩).add v)]
  | (k2, v2) :: rest, k, v =>
    if k2 = k then (k2, (v2.orZero).add v) :: rest else (k2, v2) :: bump rest k v

/-- The summation loop over the collected expenses (aggregate.js lines
152-156, src/index.js lines 142-146). -/
def sumExpenses (mp : List (String × String)) (es : List (String × JSNum)) :
    List (String × JSNum) :=
  es.foldl (fun m en => bump m (normalizeCat mp en.1) en.2) []

/-- The insertion-ordered set `allCategories`.  The code inserts each raw
category right before pushing its expense record, so the set equals the
first-occurrence deduplication of the expense list's categories. -/
def allCatsOf (es : List (String × JSNum)) : List String :=
  es.foldl (fun acc en => if acc.contains en.1 then acc else acc ++ [en.1]) []

/-- A cell of the table written to the master sheet. -/
inductive Cell where
  | s : String → Cell
  | n : JSNum → Cell
deriving DecidableEq

def mkRow (en : String × JSNum) : List Cell := [Cell.s en.1, Cell.n en.2]

/-- `tableData = [["Category","Amount"], ...sortedEntries]`. -/
def mkTable (rows : List (String × JSNum)) : List (List Cell) :=
  [Cell.s "Category", Cell.s "Amount"] :: rows.map mkRow

/-- `Array.from(categoryMap.values()).reduce((sum, val) => sum + val, 0)`. -/
def totalOf (m : List (String × JSNum)) : JSNum :=
  m.foldl (fun acc en => acc.add en.2) (JSNum.fin ⟨0, 0⟩)

/-- Observable events of one pipeline run, in program order. -/
inductive Ev where
  | readSrc : Nat → Ev
  | llmClassify : Nat → Ev
  | llmNormalize : Ev
  | askIdentity : Ev
  | readMaster : Ev
  | askOverwrite : Ev
  | clearMaster : Ev
  | writeMaster : List (List Cell) → Ev
  | doneMsg : Ev
  | logTotal : JSNum → Ev
  | successMsg : JSNum → Ev
  | errorMsg : Ev
deriving DecidableEq

/-- The per-source extraction loop shared by both surfaces (aggregate.js
lines 100-120, src/index.js lines 105-124).  `cr i` is the parsed
language-model classification for source `i`; `none` models a response that
is not valid JSON, whose `JSON.parse` throws and aborts the loop.  The
result's second component is `none` exactly when such a throw happened. -/
def srcLoop (useLLM : Bool) (cr : Nat → Option (Option Nat × Option Nat)) :
    Nat → List (Option (List (List String))) → List Ev × Option (List (String × JSNum))
  | _, [] => ([], some [])
  | i, none :: rest => srcLoop useLLM cr (i + 1) rest
  | i, some rows :: rest =>
    if 1 < rows.length then
      if useLLM then
        match cr i with
        | none => ([Ev.llmClassify i], none)
        | some m =>
          let es := (rows.drop 1).filterMap (fun r => rowExpense m.1 m.2 r)
          match srcLoop useLLM cr (i + 1) rest with
          | (tr, none) => (Ev.llmClassify i :: tr, none)
          | (tr, some es2) => (Ev.llmClassify i :: tr, some (es ++ es2))
      else
        let m := getMappingHeuristic (rows.headD [])
        let es := (rows.drop 1).filterMap (fun r => rowExpense m.1 m.2 r)
        match srcLoop useLLM cr (i + 1) rest with
        | (tr, none) => (tr, none)
        | (tr, some es2) => (tr, some (es ++ es2))
    else srcLoop useLLM cr (i + 1) rest

/-- Environment of one interactive run of `aggregateBudgets` (aggregate.js):
the remote data, the parsed LLM responses (`none` = invalid JSON), the user's
two possible answers, and the master sheet's current contents. -/
structure ScriptEnv where
  useLLM : Bool
  sources : List (Option (List (List String)))
  classifyResp : Nat → Option (Option Nat × Option Nat)
  normalizeResp : Option (List (String × String))
  identityAnswer : String
  masterData : List (List Cell)
  overwriteAnswer : String
  numStr : JSNum → String

/-- The master-sheet phase of aggregate.js (lines 160-189): read the master,
ask for confirmation when it holds more than one row, then clear and write. -/
def masterPhase (env : ScriptEnv) (tr : List Ev) (rows : List (String × JSNum)) : List Ev :=
  let tbl := mkTable (sortByKey (entryKey env.numStr) rows)
  let tot := totalOf rows
  let tr2 := tr ++ [Ev.readMaster]
  if 1 < env.masterData.length then
    if jsToLower env.overwriteAnswer = "y" then
      tr2 ++ [Ev.askOverwrite, Ev.clearMaster, Ev.writeMaster tbl, Ev.doneMsg, Ev.logTotal tot]
    else tr2 ++ [Ev.askOverwrite, Ev.logTotal tot]
  else tr2 ++ [Ev.clearMaster, Ev.writeMaster tbl, Ev.doneMsg, Ev.logTotal tot]

/-- One run of `aggregateBudgets` (aggregate.js lines 77-193) as the list of
its observable events.  A `JSON.parse` throw propagates to the single
top-level catch, which prints one error message. -/
def runScript (env : ScriptEnv) : List Ev :=
  let readEvs := (List.range env.sources.length).map Ev.readSrc
  match srcLoop env.useLLM env.classifyResp 0 env.sources with
  | (loopTr, none) => readEvs ++ loopTr ++ [Ev.errorMsg]
  | (loopTr, some expenses) =>
    if env.useLLM then
      match env.normalizeResp with
      | none => readEvs ++ loopTr ++ [Ev.llmNormalize, Ev.errorMsg]
      | some mp => masterPhase env (readEvs ++ loopTr ++ [Ev.llmNormalize]) (sumExpenses mp expenses)
    else
      if jsToLower env.identityAnswer = "y" then
        masterPhase env (readEvs ++ loopTr ++ [Ev.askIdentity])
          (sumExpenses ((allCatsOf expenses).map (fun c => (c, c))) expenses)
      else readEvs ++ loopTr ++ [Ev.askIdentity]

/-- Environment of one `aggregate_budgets` tool call (src/index.js). -/
structure McpEnv where
  sources : List (Option (List (List String)))
  classifyResp : Nat → Option (Option Nat × Option Nat)
  normalizeResp : Option (List (String × String))
  numStr : JSNum → String

/-- One run of the `aggregate_budgets` tool handler (src/index.js lines
85-164) as the list of its observable events.  The handler always uses the
language model, never reads the master sheet, never asks for confirmation,
and never clears before writing. -/
def runMcp (env : McpEnv) : List Ev :=
  let readEvs := (List.range env.sources.length).map Ev.readSrc
  match srcLoop true env.classifyResp 0 env.sources with
  | (tr, none) => readEvs ++ tr ++ [Ev.errorMsg]
  | (tr, some expenses) =>
    match env.normalizeResp with
    | none => readEvs ++ tr ++ [Ev.llmNormalize, Ev.errorMsg]
    | some mp =>
      let rows := sumExpenses mp expenses
      readEvs ++ tr ++ [Ev.llmNormalize,
        Ev.writeMaster (mkTable (sortByKey (entryKey env.numStr) rows)),
        Ev.successMsg (totalOf rows)]

/-- What the lazy group `(.*?)` may consume: anything but `/` (the
terminator) and a newline (`.` does not match newlines). -/
def noSlashNL (c : Char) : Bool := !(c == '/') && !(c == '\n')

/-- One capture attempt right after a literal `/d/`: the lazy group `(.*?)`
takes characters up to the first `/` (`.` does not match a newline); the
attempt succeeds iff that stretch is terminated by `/` or by the end of the
string (the `headD` default encodes the end-of-string case). -/
def captureAfterD (cs : List Char) : Option (List Char) :=
  let cap := cs.takeWhile noSlashNL
  if (cs.drop cap.length).headD '/' = '/' then some cap else none

/-- Leftmost match of the regular expression `/\/d\/(.*?)(\/|$)/`: scan for
the first position where `/d/` begins and the capture attempt succeeds. -/
def scanD : List Char → Option (List Char)
  | [] => none
  | c :: cs =>
    if c = '/' ∧ cs.take 2 = ['d', '/'] then
      match captureAfterD (cs.drop 2) with
      | some cap => some cap
      | none => scanD cs
    else scanD cs

/-- `extractId` (aggregate.js line 21, src/index.js line 33):
`url.match(/\/d\/(.*?)(\/|$)/)?.[1] || url`; an empty captured string is
falsy, so it also falls back to the whole input. -/
def extractId (url : String) : String :=
  match scanD url.data with
  | some cap => if cap = [] then url else String.mk cap
  | none => url

example : extractId "https://docs.google.com/spreadsheets/d/abc123/edit" = "abc123" := by decide
example : extractId "plain-id" = "plain-id" := by decide
example : extractId "https://x/d//edit" = "https://x/d//edit" := by decide
example : extractId "https://x/d/tail" = "tail" := by decide
example :
    sortByKey (entryKey (fun _ => ""))
      [("Misc", JSNum.fin ⟨1, 0⟩), ("Misc Extra", JSNum.fin ⟨2, 0⟩)] =
      [("Misc Extra", JSNum.fin ⟨2, 0⟩), ("Misc", JSNum.fin ⟨1, 0⟩)] := by decide

/-- Specification-side helper: the index of the last element satisfying `p`,
defined by recursion from the right. -/
def lastIdxP (p : String → Bool) : List String → Option Nat
  | [] => none
  | h :: t =>
    match lastIdxP p t with
    | some k => some (k + 1)
    | none => if p h then some 0 else none

lemma lastHit_eq (p : String → Bool) :
    ∀ (hs : List String) (n : Nat) (acc : Option Nat),
      lastHit p n hs acc = (lastIdxP p hs).elim acc (fun k => some (n + k)) := by
  intro hs
  induction hs with
  | nil => intro n acc; simp [lastHit, lastIdxP]
  | cons h t ih =>
    intro n acc
    rw [show lastHit p n (h :: t) acc = lastHit p (n + 1) t (if p h then some n else acc) from rfl]
    rw [ih]
    cases hlt : lastIdxP p t with
    | some k =>
      simp only [lastIdxP, hlt, Option.elim_some]
      exact congrArg some (by omega)
    | none =>
      by_cases hp : p h <;> simp [lastIdxP, hlt, hp]

lemma lastIdxP_none (p : String → Bool) :
    ∀ hs : List String, lastIdxP p hs = none ↔
      ∀ i, i < hs.length → p (hs.getD i "") = false := by
  intro hs
  induction hs with
  | nil => simp [lastIdxP]
  | cons h t ih =>
    constructor
    · intro hnone i hi
      have h1 : lastIdxP p t = none := by
        unfold lastIdxP at hnone
        cases hlt : lastIdxP p t with
        | some k => rw [hlt] at hnone; simp at hnone
        | none => rfl
      have h2 : p h = false := by
        unfold lastIdxP at hnone
        rw [h1] at hnone
        by_cases hp : p h
        · rw [hp] at hnone; simp at hnone
        · simpa using hp
      cases i with
      | zero => simpa using h2
      | succ j =>
        have := (ih.mp h1) j (by simpa using hi)
        simpa using this
    · intro hall
      have h2 : p h = false := by simpa using hall 0 (by simp)
      have h1 : lastIdxP p t = none := by
        apply ih.mpr
        intro j hj
        have := hall (j + 1) (by simpa using hj)
        simpa using this
      unfold lastIdxP
      rw [h1, h2]
      simp

lemma lastIdxP_some (p : String → Bool) :
    ∀ (hs : List String) (k : Nat), lastIdxP p hs = some k →
      k < hs.length ∧ p (hs.getD k "") = true ∧
        ∀ i, k < i → i < hs.length → p (hs.getD i "") = false := by
  intro hs
  induction hs with
  | nil => intro k h; simp [lastIdxP] at h
  | cons h t ih =>
    intro k hk
    unfold lastIdxP at hk
    cases hlt : lastIdxP p t with
    | some k0 =>
      rw [hlt] at hk
      simp only [Option.some_inj] at hk
      obtain ⟨h1, h2, h3⟩ := ih k0 hlt
      refine ⟨?_, ?_, ?_⟩
      · simp; omega
      · rw [← hk]; simpa using h2
      · intro i hik hil
        rw [← hk] at hik
        cases i with
        | zero => omega
        | succ j =>
          have := h3 j (by omega) (by simpa using hil)
          simpa using this
    | none =>
      rw [hlt] at hk
      by_cases hp : p h
      · rw [hp] at hk
        simp only [if_true, Option.some_inj] at hk
        refine ⟨by simp; omega, ?_, ?_⟩
        · rw [← hk]; simpa using hp
        · intro i hik hil
          rw [← hk] at hik
          cases i with
          | zero => omega
          | succ j =>
            have := (lastIdxP_none p t).mp hlt j (by simpa using hil)
            simpa using this
      · rw [if_neg hp] at hk; simp at hk

lemma lastHit_zero (p : String → Bool) (hs : List String) :
    lastHit p 0 hs none = lastIdxP p hs := by
  rw [lastHit_eq]
  cases h : lastIdxP p hs <;> simp

/-- C2: for every header list, the heuristic classifier returns for the
category role the index of the last header containing `"category"`
case-insensitively, and for the amount role the index of the last header
containing `"cost"`, `"amount"`, or `"price"` case-insensitively; `none`
when no header qualifies, and every returned index is in range. -/
theorem c2_heuristic_mapping (headers : List String) :
    (((getMappingHeuristic headers).1 = none ↔
        ∀ i, i < headers.length → catP (headers.getD i "") = false) ∧
      ∀ k, (getMappingHeuristic headers).1 = some k →
        k < headers.length ∧ catP (headers.getD k "") = true ∧
          ∀ i, k < i → i < headers.length → catP (headers.getD i "") = false) ∧
    (((getMappingHeuristic headers).2 = none ↔
        ∀ i, i < headers.length → amtP (headers.getD i "") = false) ∧
      ∀ k, (getMappingHeuristic headers).2 = some k →
        k < headers.length ∧ amtP (headers.getD k "") = true ∧
          ∀ i, k < i → i < headers.length → amtP (headers.getD i "") = false) := by
  have h1 : (getMappingHeuristic headers).1 = lastIdxP catP headers := by
    simp [getMappingHeuristic, lastHit_zero]
  have h2 : (getMappingHeuristic headers).2 = lastIdxP amtP headers := by
    simp [getMappingHeuristic, lastHit_zero]
  constructor
  · constructor
    · rw [h1]; exact lastIdxP_none catP headers
    · intro k hk; exact lastIdxP_some catP headers k (h1 ▸ hk)
  · constructor
    · rw [h2]; exact lastIdxP_none amtP headers
    · intro k hk; exact lastIdxP_some amtP headers k (h2 ▸ hk)

theorem c2_heuristic_mapping_witness :
    1 < (["Item", "Category", "Cost"] : List String).length ∧
      catP ((["Item", "Category", "Cost"] : List String).getD 1 "") = true :=
  ⟨((c2_heuristic_mapping ["Item", "Category", "Cost"]).1.2 1 (by decide)).1,
   ((c2_heuristic_mapping ["Item", "Category", "Cost"]).1.2 1 (by decide)).2.1⟩

lemma parseFloatJS_empty : parseFloatJS "" = JSNum.nan := by decide

lemma srcLoop_total (b : Bool) (cr : Nat → Option (Option Nat × Option Nat)) :
    ∀ (srcs : List (Option (List (List String)))) (i : Nat), (∀ j, cr j ≠ none) →
      (srcLoop b cr i srcs).2 ≠ none := by
  intro srcs
  induction srcs with
  | nil => intro i _; simp [srcLoop]
  | cons d rest ih =>
    intro i hcr
    cases d with
    | none => simpa [srcLoop] using ih (i + 1) hcr
    | some rows =>
      simp only [srcLoop]
      by_cases hlen : 1 < rows.length
      · rw [if_pos hlen]
        cases b with
        | false =>
          have h2 := ih (i + 1) hcr
          cases hrec : srcLoop false cr (i + 1) rest with
          | mk tr r =>
            rw [hrec] at h2
            cases r with
            | none => simp at h2
            | some es2 => simp [hrec]
        | true =>
          cases hcri : cr i with
          | none => exact absurd hcri (hcr i)
          | some m =>
            have h2 := ih (i + 1) hcr
            cases hrec : srcLoop true cr (i + 1) rest with
            | mk tr r =>
              rw [hrec] at h2
              cases r with
              | none => simp at h2
              | some es2 => simp [hrec]
      · rw [if_neg hlen]
        exact ih (i + 1) hcr

/-- C1 (amended): a raw row contributes an expense record iff both mapped
indices are non-null, the row has more cells than the larger index, the
category cell is non-empty after trimming, and the amount cell parses as a
non-NaN number (finite or an Infinity literal); and row contents alone can
never make the extraction loop fail. -/
theorem c1_row_validation :
    (∀ (c a : Nat) (row : List String),
        rowExpense (some c) (some a) row ≠ none ↔
          max c a < row.length ∧ jsTrim (row.getD c "") ≠ "" ∧
            parseFloatJS (row.getD a "") ≠ JSNum.nan) ∧
    (∀ (ai : Option Nat) (row : List String), rowExpense none ai row = none) ∧
    (∀ (ci : Option Nat) (row : List String), rowExpense ci none row = none) ∧
    (∀ (b : Bool) (cr : Nat → Option (Option Nat × Option Nat))
        (srcs : List (Option (List (List String)))) (i : Nat),
      (∀ j, cr j ≠ none) → (srcLoop b cr i srcs).2 ≠ none) := by
  refine ⟨?_, ?_, ?_, ?_⟩
  · intro c a row
    simp only [rowExpense]
    split_ifs with h1 h2 h3
    · simp only [ne_eq, not_true_eq_false, false_iff]
      intro hcon
      omega
    · simp only [ne_eq, not_true_eq_false, false_iff]
      intro hcon
      rcases h2 with hc | ha
      · exact hcon.2.1 hc
      · rw [ha, parseFloatJS_empty] at hcon
        exact hcon.2.2 rfl
    · simp only [ne_eq, not_true_eq_false, false_iff]
      intro hcon
      exact hcon.2.2 h3
    · simp only [ne_eq, reduceCtorEq, not_false_eq_true, true_iff]
      push_neg at h2
      exact ⟨by omega, h2.1, h3⟩
  · intro ai row; cases ai <;> rfl
  · intro ci row; cases ci <;> rfl
  · intro b cr srcs i h; exact srcLoop_total b cr srcs i h

theorem c1_row_validation_witness :
    rowExpense (some 1) (some 2) ["Tape", "Equipment", "10"] ≠ none ∧
      (srcLoop false (fun _ => some (none, none)) 0 []).2 ≠ none :=
  ⟨(c1_row_validation.1 1 2 ["Tape", "Equipment", "10"]).mpr
      ⟨by decide, by decide, by decide⟩,
   c1_row_validation.2.2.2 false (fun _ => some (none, none)) [] 0
      (fun j h => Option.noConfusion h)⟩

/-- C1 counterexample to the claim as stated: the amount cell `"Infinity"`
does not parse as a finite number, yet the row contributes a record. -/
theorem c1_counterexample :
    rowExpense (some 0) (some 1) ["A", "Infinity"] = some ("A", JSNum.inf true) ∧
    parseFloatJS "Infinity" = JSNum.inf true ∧
    JSNum.isFinite (JSNum.inf true) = false := by decide

/-- The two concrete sources of the C3 scenario. -/
def srcsC3 : List (Option (List (List String))) :=
  [some [["Item", "Category", "Cost"], ["Tape", "Equipment", "10"], ["Cups", "Food", "5.50"]],
   some [["Desc", "Type", "Price"], ["Mic", "Audio Gear", "20"]]]

/-- The C3 scenario run interactively in heuristic mode with identity
normalization accepted, against an empty master sheet. -/
def envC3 : ScriptEnv :=
  ⟨false, srcsC3, fun _ => none, none, "y", [], "", fun _ => ""⟩

/-- C3 counterexample to the claim as stated: heuristic classification of
the second source's headers yields a null category index, not index 1. -/
theorem c3_counterexample :
    getMappingHeuristic ["Desc", "Type", "Price"] = (none, some 2) ∧
    getMappingHeuristic ["Desc", "Type", "Price"] ≠ (some 1, some 2) := by decide

/-- C3 (amended): source A maps to `(category 1, amount 2)`, source B to
`(category null, amount 2)`, so source B contributes nothing; the run writes
the table `Equipment = 10, Food = 5.5` and reports total `15.5`. -/
theorem c3_scenario :
    getMappingHeuristic ["Item", "Category", "Cost"] = (some 1, some 2) ∧
    getMappingHeuristic ["Desc", "Type", "Price"] = (none, some 2) ∧
    runScript envC3 =
      [Ev.readSrc 0, Ev.readSrc 1, Ev.askIdentity, Ev.readMaster, Ev.clearMaster,
        Ev.writeMaster
          [[Cell.s "Category", Cell.s "Amount"],
           [Cell.s "Equipment", Cell.n (JSNum.fin ⟨10, 0⟩)],
           [Cell.s "Food", Cell.n (JSNum.fin ⟨550, 2⟩)]],
        Ev.doneMsg, Ev.logTotal (JSNum.fin ⟨1550, 2⟩)] ∧
    Dec.toRat ⟨10, 0⟩ = 10 ∧ Dec.toRat ⟨550, 2⟩ = 11 / 2 ∧ Dec.toRat ⟨1550, 2⟩ = 31 / 2 := by
  refine ⟨by decide, by decide, by decide, ?_, ?_, ?_⟩ <;> norm_num [Dec.toRat]

/-- C8 (amended): the canonical category is the LLM's value when the key is
present with a non-empty value, and falls back to the raw category when the
key is absent or its value is the empty string (JS `||` on a falsy string);
the summation loop applies exactly this mapping. -/
theorem c8_category_mapping :
    (∀ (mp : List (String × String)) (c v : String),
        assocFind mp c = some v → v ≠ "" → normalizeCat mp c = v) ∧
    (∀ (mp : List (String × String)) (c : String),
        assocFind mp c = none → normalizeCat mp c = c) ∧
    (∀ (mp : List (String × String)) (c : String),
        assocFind mp c = some "" → normalizeCat mp c = c) ∧
    (∀ (mp : List (String × String)) (es : List (String × JSNum)),
        sumExpenses mp es = es.foldl (fun m en => bump m (normalizeCat mp en.1) en.2) []) := by
  refine ⟨?_, ?_, ?_, ?_⟩
  · intro mp c v h hv; simp [normalizeCat, h, hv]
  · intro mp c h; simp [normalizeCat, h]
  · intro mp c h; simp [normalizeCat, h]
  · intro mp es; rfl

theorem c8_category_mapping_witness :
    normalizeCat [("Camera Gear", "Photography")] "Camera Gear" = "Photography" :=
  c8_category_mapping.1 [("Camera Gear", "Photography")] "Camera Gear" "Photography"
    (by decide) (by decide)

/-- C8 counterexample to the claim as stated: the key `"A"` is present in
the LLM response with value `""`, yet the canonical category is `"A"`. -/
theorem c8_counterexample :
    assocFind [("A", "")] "A" = some "" ∧
    normalizeCat [("A", "")] "A" = "A" ∧
    ("A" : String) ≠ "" := by decide

lemma drop_takeWhile_len (p : Char → Bool) :
    ∀ cs : List Char, cs.drop (cs.takeWhile p).length = cs.dropWhile p := by
  intro cs
  induction cs with
  | nil => rfl
  | cons c t ih =>
    by_cases hp : p c <;> simp [List.takeWhile_cons, List.dropWhile_cons, hp, ih]

lemma captureAfterD_spec (cs cap : List Char) (h : captureAfterD cs = some cap) :
    (∀ ch ∈ cap, ch ≠ '/' ∧ ch ≠ '\n') ∧ (cs = cap ∨ ∃ t, cs = cap ++ '/' :: t) := by
  simp only [captureAfterD] at h
  rw [drop_takeWhile_len] at h
  have hsplit : cs.takeWhile noSlashNL ++ cs.dropWhile noSlashNL = cs :=
    List.takeWhile_append_dropWhile noSlashNL cs
  have hmem : ∀ ch ∈ cs.takeWhile noSlashNL, ch ≠ '/' ∧ ch ≠ '\n' := by
    intro ch hch
    have h2 := List.mem_takeWhile_imp hch
    simp only [noSlashNL, Bool.and_eq_true, Bool.not_eq_true', beq_eq_false_iff_ne] at h2
    exact h2
  cases hdw : cs.dropWhile noSlashNL with
  | nil =>
    rw [hdw] at h
    simp only [List.headD_nil, if_pos, Option.some_inj] at h
    subst h
    rw [hdw] at hsplit
    exact ⟨hmem, Or.inl (by simpa using hsplit.symm)⟩
  | cons c t =>
    rw [hdw] at h
    simp only [List.headD_cons] at h
    by_cases hc : c = '/'
    · rw [if_pos hc] at h
      simp only [Option.some_inj] at h
      subst h
      rw [hdw, hc] at hsplit
      exact ⟨hmem, Or.inr ⟨t, hsplit.symm⟩⟩
    · rw [if_neg hc] at h
      exact absurd h (by simp)

lemma scanD_spec : ∀ (cs cap : List Char), scanD cs = some cap →
    ∃ pre post, cs = pre ++ '/' :: 'd' :: '/' :: (cap ++ post) ∧
      (∀ ch ∈ cap, ch ≠ '/' ∧ ch ≠ '\n') ∧ (post = [] ∨ ∃ t, post = '/' :: t) := by
  intro cs
  induction cs with
  | nil => intro cap h; simp [scanD] at h
  | cons c cs ih =>
    intro cap h
    rw [show scanD (c :: cs) =
        (if c = '/' ∧ cs.take 2 = ['d', '/'] then
          match captureAfterD (cs.drop 2) with
          | some cap => some cap
          | none => scanD cs
        else scanD cs) from rfl] at h
    by_cases hc : c = '/' ∧ cs.take 2 = ['d', '/']
    · rw [if_pos hc] at h
      cases hcap : captureAfterD (cs.drop 2) with
      | some cap0 =>
        rw [hcap] at h
        simp only [Option.some_inj] at h
        subst h
        obtain ⟨hmem, hsplit⟩ := captureAfterD_spec (cs.drop 2) cap0 hcap
        have hcs : cs = 'd' :: '/' :: cs.drop 2 := by
          have := List.take_append_drop 2 cs
          rw [hc.2] at this
          simpa using this.symm
        rcases hsplit with heq | ⟨t, heq⟩
        · refine ⟨[], [], ?_, hmem, Or.inl rfl⟩
          rw [hc.1, hcs, ← heq]
          simp
        · refine ⟨[], '/' :: t, ?_, hmem, Or.inr ⟨t, rfl⟩⟩
          rw [hc.1, hcs, heq]
          simp
      | none =>
        rw [hcap] at h
        obtain ⟨pre, post, heq, hmem, hpost⟩ := ih cap h
        exact ⟨c :: pre, post, by rw [heq]; rfl, hmem, hpost⟩
    · rw [if_neg hc] at h
      obtain ⟨pre, post, heq, hmem, hpost⟩ := ih cap h
      exact ⟨c :: pre, post, by rw [heq]; rfl, hmem, hpost⟩

/-- C9 (amended): when the pattern `/\/d\/(.*?)(\/|$)/` matches with a
non-empty captured segment, `extractId` returns that segment — the text
between the first viable `/d/` and the next `/` or the end of the string;
when the pattern does not match, or the captured segment is empty (a falsy
string), the whole input is returned verbatim. -/
theorem c9_extract_id (url : String) :
    (scanD url.data = none → extractId url = url) ∧
    (scanD url.data = some [] → extractId url = url) ∧
    (∀ cap, scanD url.data = some cap → cap ≠ [] →
      extractId url = String.mk cap ∧
        ∃ pre post, url.data = pre ++ '/' :: 'd' :: '/' :: (cap ++ post) ∧
          (∀ ch ∈ cap, ch ≠ '/' ∧ ch ≠ '\n') ∧ (post = [] ∨ ∃ t, post = '/' :: t)) := by
  refine ⟨?_, ?_, ?_⟩
  · intro h; simp [extractId, h]
  · intro h; simp [extractId, h]
  · intro cap h hne
    refine ⟨by simp [extractId, h, hne], scanD_spec url.data cap h⟩

theorem c9_extract_id_witness :
    extractId "https://docs.google.com/spreadsheets/d/abc123/edit" = String.mk ['a', 'b', 'c', '1', '2', '3'] :=
  (((c9_extract_id "https://docs.google.com/spreadsheets/d/abc123/edit").2.2
      ['a', 'b', 'c', '1', '2', '3'] (by decide) (by decide))).1

/-- C9 counterexample to the claim as stated: on `"https://x/d//edit"` the
pattern matches with an empty captured segment, yet the function returns the
entire input rather than the segment. -/
theorem c9_counterexample :
    scanD ("https://x/d//edit".data) = some [] ∧
    extractId "https://x/d//edit" = "https://x/d//edit" ∧
    ("https://x/d//edit" : String) ≠ "" := by decide

lemma charToNat_inj {a b : Char} (h : a.toNat = b.toNat) : a = b :=
  Char.ext (UInt32.ext h)

lemma lexLt_irrefl : ∀ a : List Char, lexLt a a = false := by
  intro a
  induction a with
  | nil => rfl
  | cons c t ih => simp [lexLt, ih]

lemma lexLt_trans : ∀ a b c : List Char,
    lexLt a b = true → lexLt b c = true → lexLt a c = true := by
  intro a
  induction a with
  | nil =>
    intro b c hab hbc
    cases b with
    | nil => simp [lexLt] at hab
    | cons b1 bt =>
      cases c with
      | nil => simp [lexLt] at hbc
      | cons c1 ct => simp [lexLt]
  | cons a1 t1 ih =>
    intro b c hab hbc
    cases b with
    | nil => simp [lexLt] at hab
    | cons b1 bt =>
      cases c with
      | nil => simp [lexLt] at hbc
      | cons c1 ct =>
        simp only [lexLt] at hab hbc ⊢
        split_ifs at hab hbc ⊢ <;> try omega
        all_goals simp_all
        exact ih bt ct hab hbc

lemma lexLt_tricho : ∀ a b : List Char, lexLt a b = true ∨ a = b ∨ lexLt b a = true := by
  intro a
  induction a with
  | nil =>
    intro b
    cases b with
    | nil => exact Or.inr (Or.inl rfl)
    | cons b1 bt => exact Or.inl (by simp [lexLt])
  | cons a1 t1 ih =>
    intro b
    cases b with
    | nil => exact Or.inr (Or.inr (by simp [lexLt]))
    | cons b1 bt =>
      rcases Nat.lt_trichotomy a1.toNat b1.toNat with hl | he | hg
      · exact Or.inl (by simp [lexLt, hl])
      · have hchar : a1 = b1 := charToNat_inj he
        subst hchar
        rcases ih bt with h | h | h
        · exact Or.inl (by simp [lexLt, h])
        · exact Or.inr (Or.inl (by rw [h]))
        · exact Or.inr (Or.inr (by simp [lexLt, h]))
      · exact Or.inr (Or.inr (by simp [lexLt, hg]))

lemma lexLt_asymm (a b : List Char) (h : lexLt a b = true) : lexLt b a = false := by
  by_contra hc
  have h2 : lexLt b a = true := by simpa using hc
  have h3 := lexLt_trans a b a h h2
  rw [lexLt_irrefl] at h3
  exact absurd h3 (by simp)

lemma insertByKey_perm {α : Type} (key : α → List Char) (x : α) :
    ∀ l : List α, List.Perm (insertByKey key x l) (x :: l) := by
  intro l
  induction l with
  | nil => exact List.Perm.refl _
  | cons y ys ih =>
    simp only [insertByKey]
    by_cases h : lexLe (key x) (key y) = true
    · rw [if_pos h]
    · rw [if_neg h]
      exact (List.Perm.cons y ih).trans (List.Perm.swap x y ys)

lemma sortByKey_perm {α : Type} (key : α → List Char) :
    ∀ l : List α, List.Perm (sortByKey key l) l := by
  intro l
  induction l with
  | nil => exact List.Perm.refl _
  | cons x xs ih =>
    have h1 : sortByKey key (x :: xs) = insertByKey key x (sortByKey key xs) := rfl
    rw [h1]
    exact (insertByKey_perm key x (sortByKey key xs)).trans (List.Perm.cons x ih)

lemma mem_insertByKey {α : Type} (key : α → List Char) (x y : α) (l : List α) :
    y ∈ insertByKey key x l ↔ y = x ∨ y ∈ l := by
  rw [(insertByKey_perm key x l).mem_iff]
  simp

lemma insertByKey_sorted {α : Type} (key : α → List Char) (x : α) :
    ∀ l : List α, l.Pairwise (fun a b => lexLt (key b) (key a) = false) →
      (insertByKey key x l).Pairwise (fun a b => lexLt (key b) (key a) = false) := by
  intro l
  induction l with
  | nil => intro _; simp [insertByKey]
  | cons y ys ih =>
    intro hp
    rcases List.pairwise_cons.mp hp with ⟨hy, hys⟩
    simp only [insertByKey]
    by_cases hxy : lexLe (key x) (key y) = true
    · rw [if_pos hxy]
      refine List.pairwise_cons.mpr ⟨?_, hp⟩
      intro z hz
      rcases List.mem_cons.mp hz with rfl | hz2
      · simpa [lexLe] using hxy
      · have hyz := hy z hz2
        have hxyn : lexLt (key y) (key x) = false := by simpa [lexLe] using hxy
        by_contra hcon
        have hzx : lexLt (key z) (key x) = true := by simpa using hcon
        rcases lexLt_tricho (key y) (key z) with h | h | h
        · have h4 := lexLt_trans _ _ _ h hzx
          rw [hxyn] at h4
          exact absurd h4 (by simp)
        · rw [← h] at hzx
          rw [hxyn] at hzx
          exact absurd hzx (by simp)
        · rw [hyz] at h
          exact absurd h (by simp)
    · rw [if_neg hxy]
      refine List.pairwise_cons.mpr ⟨?_, ih hys⟩
      intro z hz
      rcases (mem_insertByKey key x z ys).mp hz with hzx | hz2
      · rw [hzx]
        have hyx : lexLt (key y) (key x) = true := by
          cases hlt : lexLt (key y) (key x) with
          | false => exact absurd (by simp [lexLe, hlt]) hxy
          | true => rfl
        exact lexLt_asymm _ _ hyx
      · exact hy z hz2

lemma sortByKey_sorted {α : Type} (key : α → List Char) :
    ∀ l : List α, (sortByKey key l).Pairwise (fun a b => lexLt (key b) (key a) = false) := by
  intro l
  induction l with
  | nil => simp [sortByKey]
  | cons x xs ih => exact insertByKey_sorted key x (sortByKey key xs) ih

lemma lexLt_append (x y : List Char) : ∀ c1 c2 : List Char,
    begins c1 c2 = false → begins c2 c1 = false →
    lexLt (c1 ++ x) (c2 ++ y) = lexLt c1 c2 := by
  intro c1
  induction c1 with
  | nil => intro c2 h1 h2; simp [begins] at h1
  | cons a t1 ih =>
    intro c2 h1 h2
    cases c2 with
    | nil => simp [begins] at h2
    | cons b t2 =>
      simp only [List.cons_append, lexLt]
      by_cases hab : a.toNat < b.toNat
      · simp [hab]
      · by_cases hba : b.toNat < a.toNat
        · simp [hab, hba]
        · have heq : a = b := charToNat_inj (by omega)
          subst heq
          simp only [if_neg hab, if_neg hba]
          exact ih t2 (by simpa [begins] using h1) (by simpa [begins] using h2)

lemma bump_fst : ∀ (m : List (String × JSNum)) (k : String) (v : JSNum),
    (bump m k v).map Prod.fst =
      if k ∈ m.map Prod.fst then m.map Prod.fst else m.map Prod.fst ++ [k] := by
  intro m
  induction m with
  | nil => intro k v; simp [bump]
  | cons p rest ih =>
    intro k v
    cases p with
    | mk k2 v2 =>
      by_cases hk : k2 = k
      · subst hk
        simp [bump]
      · have hbump : bump ((k2, v2) :: rest) k v = (k2, v2) :: bump rest k v := by
          simp [bump, hk]
        rw [hbump]
        simp only [List.map_cons, ih]
        by_cases hmem : k ∈ rest.map Prod.fst
        · rw [if_pos hmem, if_pos (by simp [hmem])]
        · have hcond : k ∉ k2 :: List.map Prod.fst rest := by
            simp only [List.mem_cons]
            push_neg
            exact ⟨fun h => hk h.symm, hmem⟩
          rw [if_neg hmem, if_neg hcond]
          simp

lemma sumExpenses_aux_nodup :
    ∀ (es : List (String × JSNum)) (mp : List (String × String)) (m : List (String × JSNum)),
      (m.map Prod.fst).Nodup →
      ((es.foldl (fun m en => bump m (normalizeCat mp en.1) en.2) m).map Prod.fst).Nodup := by
  intro es
  induction es with
  | nil => intro mp m h; simpa using h
  | cons en rest ih =>
    intro mp m h
    simp only [List.foldl_cons]
    apply ih
    rw [bump_fst]
    by_cases hmem : normalizeCat mp en.1 ∈ m.map Prod.fst
    · simpa [hmem] using h
    · simp [hmem, List.nodup_append, h]

lemma sumExpenses_nodup (mp : List (String × String)) (es : List (String × JSNum)) :
    ((sumExpenses mp es).map Prod.fst).Nodup :=
  sumExpenses_aux_nodup es mp [] (by simp)

/-- C4 (amended): the written table is the header `["Category","Amount"]`
followed by exactly one row per canonical category (the summation map's keys
are distinct and sorting permutes them); the rows are ordered by the JS
default sort key — the stringified entry `category + "," + amount` compared
by code units — and whenever no canonical category name is a prefix of
another, that order coincides with lexicographic ascending order by category
name.  The pipeline is a pure function of its inputs, so the result is
deterministic. -/
theorem c4_table_ordering (numStr : JSNum → String) (mp : List (String × String))
    (es : List (String × JSNum)) :
    mkTable (sortByKey (entryKey numStr) (sumExpenses mp es)) =
      [Cell.s "Category", Cell.s "Amount"] ::
        (sortByKey (entryKey numStr) (sumExpenses mp es)).map mkRow ∧
    ((sumExpenses mp es).map Prod.fst).Nodup ∧
    List.Perm (sortByKey (entryKey numStr) (sumExpenses mp es)) (sumExpenses mp es) ∧
    (sortByKey (entryKey numStr) (sumExpenses mp es)).Pairwise
      (fun a b => lexLt (entryKey numStr b) (entryKey numStr a) = false) ∧
    ((∀ a b, a ∈ sumExpenses mp es → b ∈ sumExpenses mp es → a.1 ≠ b.1 →
        begins a.1.data b.1.data = false) →
      (sortByKey (entryKey numStr) (sumExpenses mp es)).Pairwise
        (fun a b => lexLt a.1.data b.1.data = true)) := by
  have hperm := sortByKey_perm (entryKey numStr) (sumExpenses mp es)
  have hsorted := sortByKey_sorted (entryKey numStr) (sumExpenses mp es)
  refine ⟨rfl, sumExpenses_nodup mp es, hperm, hsorted, ?_⟩
  intro hnopre
  have hnodup : ((sortByKey (entryKey numStr) (sumExpenses mp es)).map Prod.fst).Nodup :=
    ((hperm.map Prod.fst).symm).nodup (sumExpenses_nodup mp es)
  have hne : (sortByKey (entryKey numStr) (sumExpenses mp es)).Pairwise
      (fun a b => a.1 ≠ b.1) := List.pairwise_map.mp hnodup
  have hcomb := hsorted.and hne
  refine List.Pairwise.imp_of_mem ?_ hcomb
  intro a b ha hb hr
  have ha2 : a ∈ sumExpenses mp es := hperm.subset ha
  have hb2 : b ∈ sumExpenses mp es := hperm.subset hb
  have hab := hnopre a b ha2 hb2 hr.2
  have hba := hnopre b a hb2 ha2 (Ne.symm hr.2)
  have hkey : lexLt (entryKey numStr b) (entryKey numStr a) = lexLt b.1.data a.1.data := by
    simpa [entryKey] using
      lexLt_append (',' :: (numStr b.2).data) (',' :: (numStr a.2).data) b.1.data a.1.data hba hab
  have hba2 : lexLt b.1.data a.1.data = false := by rw [← hkey]; exact hr.1
  have hdata : a.1.data ≠ b.1.data := fun h => hr.2 (congrArg String.mk h)
  rcases lexLt_tricho a.1.data b.1.data with h | h | h
  · exact h
  · exact absurd h hdata
  · rw [hba2] at h
    exact absurd h (by simp)

theorem c4_table_ordering_witness :
    (sortByKey (entryKey (fun _ => "")) (sumExpenses [] [("A", JSNum.fin ⟨1, 0⟩)])).Pairwise
      (fun a b => lexLt a.1.data b.1.data = true) := by
  have hsum : sumExpenses [] [("A", JSNum.fin ⟨1, 0⟩)] = [("A", JSNum.fin ⟨1, 0⟩)] := by decide
  refine (c4_table_ordering (fun _ => "") [] [("A", JSNum.fin ⟨1, 0⟩)]).2.2.2.2 ?_
  intro a b ha hb hne
  rw [hsum] at ha hb
  simp only [List.mem_singleton] at ha hb
  rw [ha, hb] at hne
  exact absurd rfl hne

/-- C4 counterexample to the claim as stated: with canonical categories
`"Misc"` and `"Misc Extra"`, the default sort compares `"Misc Extra,…"`
against `"Misc,…"` and puts `"Misc Extra"` first (space sorts before comma),
although `"Misc"` is lexicographically smaller than `"Misc Extra"`. -/
theorem c4_counterexample :
    sortByKey (entryKey (fun _ => ""))
        (sumExpenses [] [("Misc", JSNum.fin ⟨1, 0⟩), ("Misc Extra", JSNum.fin ⟨2, 0⟩)]) =
      [("Misc Extra", JSNum.fin ⟨2, 0⟩), ("Misc", JSNum.fin ⟨1, 0⟩)] ∧
    lexLt "Misc".data "Misc Extra".data = true := by decide

lemma litParse_nil : litParse ([] : List Char) = none := by decide

lemma isWS_of_digit {c : Char} (h : isDigitC c = true) : isWS c = false := by
  have h1 : 48 ≤ c.toNat ∧ c.toNat ≤ 57 := by
    simpa [isDigitC, Bool.and_eq_true, decide_eq_true_eq] using h
  have e1 : (c == ' ') = false :=
    beq_eq_false_iff_ne.mpr (fun he => by subst he; exact absurd h1 (by decide))
  have e2 : (c == '\t') = false :=
    beq_eq_false_iff_ne.mpr (fun he => by subst he; exact absurd h1 (by decide))
  have e3 : (c == '\n') = false :=
    beq_eq_false_iff_ne.mpr (fun he => by subst he; exact absurd h1 (by decide))
  have e4 : (c == '\r') = false :=
    beq_eq_false_iff_ne.mpr (fun he => by subst he; exact absurd h1 (by decide))
  have e5 : (c.toNat == 11) = false := beq_eq_false_iff_ne.mpr (by omega)
  have e6 : (c.toNat == 12) = false := beq_eq_false_iff_ne.mpr (by omega)
  have e7 : (c.toNat == 160) = false := beq_eq_false_iff_ne.mpr (by omega)
  have e8 : (c.toNat == 65279) = false := beq_eq_false_iff_ne.mpr (by omega)
  simp [isWS, e1, e2, e3, e4, e5, e6, e7, e8]

lemma digit_ne {c : Char} (h : isDigitC c = true) :
    c ≠ '+' ∧ c ≠ '-' ∧ c ≠ 'I' ∧ c ≠ '.' := by
  refine ⟨?_, ?_, ?_, ?_⟩ <;> intro he <;> subst he <;> exact absurd h (by decide)

lemma splitSign_of_ne (c : Char) (r : List Char) (h1 : c ≠ '+') (h2 : c ≠ '-') :
    splitSign (c :: r) = (false, c :: r) := by
  simp [splitSign, h1, h2]

lemma litFrac_of_ne (c : Char) (r : List Char) (h : c ≠ '.') :
    litFrac (c :: r) = ([], c :: r) := by
  simp [litFrac, h]

lemma litBody_bad_start (c : Char) (cs : List Char) (hd : isDigitC c = false)
    (hdot : c ≠ '.') : litBody (c :: cs) = none := by
  simp [litBody, List.takeWhile_cons, hd, litFrac, hdot]

lemma litParse_bad_start (c : Char) (cs : List Char) (h1 : c ≠ '+') (h2 : c ≠ '-')
    (h3 : c ≠ 'I') (hd : isDigitC c = false) (hdot : c ≠ '.') :
    litParse (c :: cs) = none := by
  simp only [litParse, splitSign_of_ne c cs h1 h2]
  rw [if_neg (by simp [h3])]
  rw [litBody_bad_start c cs hd hdot]
  rfl

lemma litParse_digit_fin (d : Char) (t : List Char) (hd : isDigitC d = true) :
    ∀ v, litParse (d :: t) = some v → ∃ dec, v = JSNum.fin dec := by
  obtain ⟨hne1, hne2, hne3, _⟩ := digit_ne hd
  intro v hv
  simp only [litParse, splitSign_of_ne d t hne1 hne2] at hv
  rw [if_neg (by simp [hne3])] at hv
  rcases Option.map_eq_some'.mp hv with ⟨dec, _, hdec⟩
  simp only [if_neg (by simp : ¬ (false = true))] at hdec
  exact ⟨dec, hdec.symm⟩

lemma litParse_digit_isSome (d : Char) (hd : isDigitC d = true) :
    (litParse [d]).isSome = true := by
  obtain ⟨hne1, hne2, hne3, _⟩ := digit_ne hd
  simp only [litParse, splitSign_of_ne d [] hne1 hne2]
  rw [if_neg (by simp [hne3])]
  simp [litBody, List.takeWhile_cons, hd, litFrac]

lemma maxFold_shape (cs : List Char) : ∀ (ks : List Nat) (acc : Option (List Char)),
    (∀ l, acc = some l → (litParse l).isSome = true ∧ ∃ k, l = cs.take k) →
    ∀ l, ks.foldl
        (fun acc k => if (litParse (cs.take k)).isSome then some (cs.take k) else acc) acc =
        some l →
      (litParse l).isSome = true ∧ ∃ k, l = cs.take k := by
  intro ks
  induction ks with
  | nil => intro acc hacc l hl; exact hacc l hl
  | cons k0 ks ih =>
    intro acc hacc l hl
    simp only [List.foldl_cons] at hl
    refine ih _ ?_ l hl
    intro l2 hl2
    by_cases hk : (litParse (cs.take k0)).isSome = true
    · rw [if_pos hk] at hl2
      simp only [Option.some_inj] at hl2
      subst hl2
      exact ⟨hk, k0, rfl⟩
    · rw [if_neg hk] at hl2
      exact hacc l2 hl2

lemma maxFold_keepSome (cs : List Char) : ∀ (ks : List Nat) (x : List Char),
    ∃ l, ks.foldl
      (fun acc k => if (litParse (cs.take k)).isSome then some (cs.take k) else acc)
      (some x) = some l := by
  intro ks
  induction ks with
  | nil => intro x; exact ⟨x, rfl⟩
  | cons k0 ks ih =>
    intro x
    simp only [List.foldl_cons]
    by_cases hk : (litParse (cs.take k0)).isSome = true
    · rw [if_pos hk]; exact ih _
    · rw [if_neg hk]; exact ih x

lemma maxFold_reach (cs : List Char) : ∀ (ks : List Nat) (acc : Option (List Char)) (k : Nat),
    k ∈ ks → (litParse (cs.take k)).isSome = true →
    ∃ l, ks.foldl
      (fun acc k => if (litParse (cs.take k)).isSome then some (cs.take k) else acc) acc =
      some l := by
  intro ks
  induction ks with
  | nil => intro acc k hk; simp at hk
  | cons k0 ks ih =>
    intro acc k hk hvalid
    simp only [List.foldl_cons]
    rcases List.mem_cons.mp hk with rfl | hk2
    · rw [if_pos hvalid]
      exact maxFold_keepSome cs ks _
    · exact ih _ k hk2 hvalid

lemma maxLitPrefix_some_shape (cs l : List Char) (h : maxLitPrefix cs = some l) :
    (litParse l).isSome = true ∧ ∃ k, l = cs.take k :=
  maxFold_shape cs _ none (fun l2 hl2 => absurd hl2 (by simp)) l h

lemma maxLitPrefix_isSome_of (cs : List Char) (k : Nat) (hk : k ∈ List.range (cs.length + 1))
    (hvalid : (litParse (cs.take k)).isSome = true) : ∃ l, maxLitPrefix cs = some l :=
  maxFold_reach cs _ none k hk hvalid

lemma maxLitPrefix_self (l : List Char) (h : (litParse l).isSome = true) :
    maxLitPrefix l = some l := by
  unfold maxLitPrefix
  rw [List.range_succ, List.foldl_append]
  simp only [List.foldl_cons, List.foldl_nil]
  rw [List.take_length, if_pos h]

lemma maxLitPrefix_none (cs : List Char) (hall : ∀ k, (litParse (cs.take k)).isSome = false) :
    maxLitPrefix cs = none := by
  unfold maxLitPrefix
  generalize List.range (cs.length + 1) = ks
  induction ks with
  | nil => rfl
  | cons k0 ks ih =>
    simp only [List.foldl_cons]
    rw [if_neg (by simp [hall k0])]
    exact ih

lemma litParse_dollar (l : List Char) : litParse ('$' :: l) = none :=
  litParse_bad_start '$' l (by decide) (by decide) (by decide) (by decide) (by decide)

lemma parseFloat_dollar (l : List Char) : parseFloatJS (String.mk ('$' :: l)) = JSNum.nan := by
  have htrim : jsTrimStartL ('$' :: l) = '$' :: l := by
    simp [jsTrimStartL, List.dropWhile_cons, show isWS '$' = false from by decide]
  have hnone : maxLitPrefix ('$' :: l) = none := by
    apply maxLitPrefix_none
    intro k
    cases k with
    | zero => simp [litParse_nil]
    | succ k2 => simp [List.take_succ_cons, litParse_dollar]
  simp only [parseFloatJS]
  rw [htrim, hnone]

lemma parseFloat_digit_start (d : Char) (cs : List Char) (hd : isDigitC d = true) :
    (∃ dec, parseFloatJS (String.mk (d :: cs)) = JSNum.fin dec) ∧
    parseFloatJS (String.mk (d :: cs)) =
      parseFloatJS (String.mk ((maxLitPrefix (d :: cs)).getD [])) := by
  have hws : isWS d = false := isWS_of_digit hd
  have htrim : jsTrimStartL (d :: cs) = d :: cs := by
    simp [jsTrimStartL, List.dropWhile_cons, hws]
  have h1mem : (1 : Nat) ∈ List.range ((d :: cs).length + 1) := by
    simp [List.mem_range]
  have hvalid1 : (litParse ((d :: cs).take 1)).isSome = true := by
    rw [show ((d :: cs).take 1) = [d] by simp]
    exact litParse_digit_isSome d hd
  obtain ⟨l, hl⟩ := maxLitPrefix_isSome_of (d :: cs) 1 h1mem hvalid1
  obtain ⟨hsome, k, hk⟩ := maxLitPrefix_some_shape (d :: cs) l hl
  have hlne : l ≠ [] := by
    intro he
    rw [he, litParse_nil] at hsome
    simp at hsome
  have hk1 : ∃ k2, l = d :: cs.take k2 := by
    cases k with
    | zero => rw [List.take_zero] at hk; exact absurd hk hlne
    | succ k2 => rw [List.take_succ_cons] at hk; exact ⟨k2, hk⟩
  obtain ⟨k2, hl2⟩ := hk1
  obtain ⟨v, hv⟩ := Option.isSome_iff_exists.mp hsome
  obtain ⟨dec, hdec⟩ := litParse_digit_fin d (cs.take k2) hd v (hl2 ▸ hv)
  have htrim2 : jsTrimStartL l = l := by
    rw [hl2]; simp [jsTrimStartL, List.dropWhile_cons, hws]
  constructor
  · refine ⟨dec, ?_⟩
    simp only [parseFloatJS]
    rw [htrim, hl]
    show (litParse l).getD JSNum.nan = JSNum.fin dec
    rw [hv, hdec]
    rfl
  · simp only [parseFloatJS]
    rw [htrim, hl]
    simp only [Option.getD_some]
    rw [htrim2, maxLitPrefix_self l hsome]

/-- C10: amount parsing is prefix-based: an amount cell starting with a
decimal digit is accepted, its contribution equal to the value of its
maximal numeric prefix (parsing the prefix alone yields the same number),
while a cell starting with `$` yields NaN and the row is silently skipped. -/
theorem c10_prefix_parsing :
    (∀ (d : Char) (cs : List Char), isDigitC d = true →
        JSNum.isFinite (parseFloatJS (String.mk (d :: cs))) = true ∧
        parseFloatJS (String.mk (d :: cs)) =
          parseFloatJS (String.mk ((maxLitPrefix (d :: cs)).getD []))) ∧
    (∀ l : List Char, parseFloatJS (String.mk ('$' :: l)) = JSNum.nan) ∧
    (∀ (cat : String) (d : Char) (cs : List Char), isDigitC d = true → jsTrim cat ≠ "" →
        rowExpense (some 0) (some 1) [cat, String.mk (d :: cs)] =
          some (jsTrim cat, parseFloatJS (String.mk (d :: cs)))) ∧
    (∀ (cat : String) (l : List Char),
        rowExpense (some 0) (some 1) [cat, String.mk ('$' :: l)] = none) := by
  refine ⟨?_, parseFloat_dollar, ?_, ?_⟩
  · intro d cs hd
    obtain ⟨⟨dec, hdec⟩, heq⟩ := parseFloat_digit_start d cs hd
    exact ⟨by rw [hdec]; rfl, heq⟩
  · intro cat d cs hd hcat
    obtain ⟨⟨dec, hdec⟩, _⟩ := parseFloat_digit_start d cs hd
    simp only [rowExpense]
    rw [if_neg (by simp)]
    simp only [List.getD_cons_zero, List.getD_cons_succ]
    rw [if_neg (by
      push_neg
      refine ⟨hcat, ?_⟩
      intro he
      have h2 : (String.mk (d :: cs)).data = ("" : String).data := congrArg String.data he
      simp at h2)]
    rw [hdec, if_neg (by simp)]
  · intro cat l
    simp only [rowExpense]
    rw [if_neg (by simp)]
    simp only [List.getD_cons_zero, List.getD_cons_succ]
    by_cases hcat : jsTrim cat = ""
    · rw [if_pos (Or.inl hcat)]
    · by_cases hstr : String.mk ('$' :: l) = ""
      · rw [if_pos (Or.inr hstr)]
      · rw [if_neg (by push_neg; exact ⟨hcat, hstr⟩)]
        rw [parseFloat_dollar, if_pos rfl]

theorem c10_prefix_parsing_witness :
    JSNum.isFinite (parseFloatJS (String.mk ('2' :: "0 USD".data))) = true ∧
    rowExpense (some 0) (some 1) ["Gear", String.mk ('2' :: "0 USD".data)] =
      some (jsTrim "Gear", parseFloatJS (String.mk ('2' :: "0 USD".data))) ∧
    rowExpense (some 0) (some 1) ["Gear", String.mk ('$' :: "20".data)] = none :=
  ⟨(c10_prefix_parsing.1 '2' "0 USD".data (by decide)).1,
   c10_prefix_parsing.2.2.1 "Gear" '2' "0 USD".data (by decide) (by decide),
   c10_prefix_parsing.2.2.2 "Gear" "20".data⟩

/-- Events that are neither a destination mutation, a confirmation request,
an output message, nor a failure — everything that may occur before the
master-sheet phase decides anything. -/
def benignEv : Ev → Bool
  | Ev.readSrc _ => true
  | Ev.llmClassify _ => true
  | Ev.llmNormalize => true
  | Ev.askIdentity => true
  | Ev.readMaster => true
  | _ => false

lemma srcLoop_cons_none (b : Bool) (cr : Nat → Option (Option Nat × Option Nat))
    (i : Nat) (rest : List (Option (List (List String)))) :
    srcLoop b cr i (none :: rest) = srcLoop b cr (i + 1) rest := rfl

lemma srcLoop_cons_small (b : Bool) (cr : Nat → Option (Option Nat × Option Nat))
    (i : Nat) (rows : List (List String)) (rest : List (Option (List (List String))))
    (h : ¬ 1 < rows.length) :
    srcLoop b cr i (some rows :: rest) = srcLoop b cr (i + 1) rest := by
  cases b <;> simp [srcLoop, h]

lemma srcLoop_trace_heur (cr : Nat → Option (Option Nat × Option Nat)) (i : Nat)
    (rows : List (List String)) (rest : List (Option (List (List String))))
    (h : 1 < rows.length) :
    (srcLoop false cr i (some rows :: rest)).1 = (srcLoop false cr (i + 1) rest).1 := by
  simp only [srcLoop, if_pos h]
  cases hrec : srcLoop false cr (i + 1) rest with
  | mk tr r => cases r <;> rfl

lemma srcLoop_cons_llm_fail (cr : Nat → Option (Option Nat × Option Nat)) (i : Nat)
    (rows : List (List String)) (rest : List (Option (List (List String))))
    (h : 1 < rows.length) (hc : cr i = none) :
    srcLoop true cr i (some rows :: rest) = ([Ev.llmClassify i], none) := by
  simp [srcLoop, h, hc]

lemma srcLoop_trace_llm (cr : Nat → Option (Option Nat × Option Nat)) (i : Nat)
    (m : Option Nat × Option Nat) (rows : List (List String))
    (rest : List (Option (List (List String)))) (h : 1 < rows.length) (hc : cr i = some m) :
    (srcLoop true cr i (some rows :: rest)).1 =
      Ev.llmClassify i :: (srcLoop true cr (i + 1) rest).1 := by
  simp only [srcLoop, if_pos h, hc]
  cases hrec : srcLoop true cr (i + 1) rest with
  | mk tr r => cases r <;> rfl

lemma srcLoop_events (b : Bool) (cr : Nat → Option (Option Nat × Option Nat)) :
    ∀ (srcs : List (Option (List (List String)))) (i : Nat) (e : Ev),
      e ∈ (srcLoop b cr i srcs).1 → ∃ j, e = Ev.llmClassify j := by
  intro srcs
  induction srcs with
  | nil => intro i e he; simp [srcLoop] at he
  | cons d rest ih =>
    intro i e he
    cases d with
    | none =>
      rw [srcLoop_cons_none] at he
      exact ih (i + 1) e he
    | some rows =>
      by_cases hlen : 1 < rows.length
      · cases b with
        | false =>
          rw [srcLoop_trace_heur cr i rows rest hlen] at he
          exact ih (i + 1) e he
        | true =>
          cases hcri : cr i with
          | none =>
            rw [srcLoop_cons_llm_fail cr i rows rest hlen hcri] at he
            simp only [List.mem_singleton] at he
            exact ⟨i, he⟩
          | some m =>
            rw [srcLoop_trace_llm cr i m rows rest hlen hcri] at he
            rcases List.mem_cons.mp he with he1 | he2
            · exact ⟨i, he1⟩
            · exact ih (i + 1) e he2
      · rw [srcLoop_cons_small b cr i rows rest hlen] at he
        exact ih (i + 1) e he

lemma benign_readEvs (n : Nat) : ∀ e ∈ (List.range n).map Ev.readSrc, benignEv e = true := by
  intro e he
  simp only [List.mem_map] at he
  obtain ⟨i, _, rfl⟩ := he
  rfl

lemma benign_loop (b : Bool) (cr : Nat → Option (Option Nat × Option Nat))
    (srcs : List (Option (List (List String)))) (i : Nat) :
    ∀ e ∈ (srcLoop b cr i srcs).1, benignEv e = true := by
  intro e he
  obtain ⟨j, rfl⟩ := srcLoop_events b cr srcs i e he
  rfl

lemma benign_append {l1 l2 : List Ev} (h1 : ∀ e ∈ l1, benignEv e = true)
    (h2 : ∀ e ∈ l2, benignEv e = true) : ∀ e ∈ l1 ++ l2, benignEv e = true := by
  intro e he
  rcases List.mem_append.mp he with h | h
  · exact h1 e h
  · exact h2 e h

lemma runScript_shape (env : ScriptEnv) :
    ∃ pre tbl tot, (∀ e ∈ pre, benignEv e = true) ∧
      (runScript env = pre ++ [Ev.errorMsg] ∨
       runScript env = pre ∨
       (1 < env.masterData.length ∧ jsToLower env.overwriteAnswer ≠ "y" ∧
         runScript env = pre ++ [Ev.askOverwrite, Ev.logTotal tot]) ∨
       (1 < env.masterData.length ∧ jsToLower env.overwriteAnswer = "y" ∧
         runScript env = pre ++
           [Ev.askOverwrite, Ev.clearMaster, Ev.writeMaster tbl, Ev.doneMsg, Ev.logTotal tot]) ∨
       (¬ 1 < env.masterData.length ∧
         runScript env = pre ++
           [Ev.clearMaster, Ev.writeMaster tbl, Ev.doneMsg, Ev.logTotal tot])) := by
  have hbread := benign_readEvs env.sources.length
  cases hloop : srcLoop env.useLLM env.classifyResp 0 env.sources with
  | mk loopTr r =>
    have hbloop : ∀ e ∈ loopTr, benignEv e = true := by
      intro e he
      exact benign_loop env.useLLM env.classifyResp env.sources 0 e (by rw [hloop]; exact he)
    cases r with
    | none =>
      refine ⟨(List.range env.sources.length).map Ev.readSrc ++ loopTr, mkTable [], JSNum.nan,
        benign_append hbread hbloop, Or.inl ?_⟩
      simp [runScript, hloop]
    | some expenses =>
      cases hu : env.useLLM with
      | true =>
        rw [hu] at hloop
        cases hnorm : env.normalizeResp with
        | none =>
          refine ⟨(List.range env.sources.length).map Ev.readSrc ++ loopTr ++ [Ev.llmNormalize],
            mkTable [], JSNum.nan,
            benign_append (benign_append hbread hbloop) (by intro e he; simp at he; subst he; rfl),
            Or.inl ?_⟩
          simp [runScript, hloop, hu, hnorm]
        | some mp =>
          by_cases hm : 1 < env.masterData.length
          · by_cases hans : jsToLower env.overwriteAnswer = "y"
            · refine ⟨(List.range env.sources.length).map Ev.readSrc ++ loopTr ++
                  [Ev.llmNormalize, Ev.readMaster],
                mkTable (sortByKey (entryKey env.numStr) (sumExpenses mp expenses)),
                totalOf (sumExpenses mp expenses), ?_,
                Or.inr (Or.inr (Or.inr (Or.inl ⟨hm, hans, ?_⟩)))⟩
              · exact benign_append (benign_append hbread hbloop)
                  (by intro e he; simp at he; rcases he with rfl | rfl <;> rfl)
              · simp [runScript, hloop, hu, hnorm, masterPhase, hm, hans]
            · refine ⟨(List.range env.sources.length).map Ev.readSrc ++ loopTr ++
                  [Ev.llmNormalize, Ev.readMaster],
                mkTable (sortByKey (entryKey env.numStr) (sumExpenses mp expenses)),
                totalOf (sumExpenses mp expenses), ?_,
                Or.inr (Or.inr (Or.inl ⟨hm, hans, ?_⟩))⟩
              · exact benign_append (benign_append hbread hbloop)
                  (by intro e he; simp at he; rcases he with rfl | rfl <;> rfl)
              · simp [runScript, hloop, hu, hnorm, masterPhase, hm, hans]
          · refine ⟨(List.range env.sources.length).map Ev.readSrc ++ loopTr ++
                [Ev.llmNormalize, Ev.readMaster],
              mkTable (sortByKey (entryKey env.numStr) (sumExpenses mp expenses)),
              totalOf (sumExpenses mp expenses), ?_,
              Or.inr (Or.inr (Or.inr (Or.inr ⟨hm, ?_⟩)))⟩
            · exact benign_append (benign_append hbread hbloop)
                (by intro e he; simp at he; rcases he with rfl | rfl <;> rfl)
            · simp [runScript, hloop, hu, hnorm, masterPhase, hm]
      | false =>
        rw [hu] at hloop
        by_cases hid : jsToLower env.identityAnswer = "y"
        · by_cases hm : 1 < env.masterData.length
          · by_cases hans : jsToLower env.overwriteAnswer = "y"
            · refine ⟨(List.range env.sources.length).map Ev.readSrc ++ loopTr ++
                  [Ev.askIdentity, Ev.readMaster],
                mkTable (sortByKey (entryKey env.numStr)
                  (sumExpenses ((allCatsOf expenses).map (fun c => (c, c))) expenses)),
                totalOf (sumExpenses ((allCatsOf expenses).map (fun c => (c, c))) expenses), ?_,
                Or.inr (Or.inr (Or.inr (Or.inl ⟨hm, hans, ?_⟩)))⟩
              · exact benign_append (benign_append hbread hbloop)
                  (by intro e he; simp at he; rcases he with rfl | rfl <;> rfl)
              · simp [runScript, hloop, hu, hid, masterPhase, hm, hans]
            · refine ⟨(List.range env.sources.length).map Ev.readSrc ++ loopTr ++
                  [Ev.askIdentity, Ev.readMaster],
                mkTable (sortByKey (entryKey env.numStr)
                  (sumExpenses ((allCatsOf expenses).map (fun c => (c, c))) expenses)),
                totalOf (sumExpenses ((allCatsOf expenses).map (fun c => (c, c))) expenses), ?_,
                Or.inr (Or.inr (Or.inl ⟨hm, hans, ?_⟩))⟩
              · exact benign_append (benign_append hbread hbloop)
                  (by intro e he; simp at he; rcases he with rfl | rfl <;> rfl)
              · simp [runScript, hloop, hu, hid, masterPhase, hm, hans]
          · refine ⟨(List.range env.sources.length).map Ev.readSrc ++ loopTr ++
                [Ev.askIdentity, Ev.readMaster],
              mkTable (sortByKey (entryKey env.numStr)
                (sumExpenses ((allCatsOf expenses).map (fun c => (c, c))) expenses)),
              totalOf (sumExpenses ((allCatsOf expenses).map (fun c => (c, c))) expenses), ?_,
              Or.inr (Or.inr (Or.inr (Or.inr ⟨hm, ?_⟩)))⟩
            · exact benign_append (benign_append hbread hbloop)
                (by intro e he; simp at he; rcases he with rfl | rfl <;> rfl)
            · simp [runScript, hloop, hu, hid, masterPhase, hm]
        · refine ⟨(List.range env.sources.length).map Ev.readSrc ++ loopTr ++ [Ev.askIdentity],
            mkTable [], JSNum.nan,
            benign_append (benign_append hbread hbloop)
              (by intro e he; simp at he; subst he; rfl),
            Or.inr (Or.inl ?_)⟩
          simp [runScript, hloop, hu, hid]

/-- Events the tool handler may emit before its write or failure: it never
reads the master sheet and never asks for confirmation. -/
def mcpPreEv : Ev → Bool
  | Ev.readSrc _ => true
  | Ev.llmClassify _ => true
  | Ev.llmNormalize => true
  | _ => false

lemma mcpPre_readEvs (n : Nat) : ∀ e ∈ (List.range n).map Ev.readSrc, mcpPreEv e = true := by
  intro e he
  simp only [List.mem_map] at he
  obtain ⟨i, _, rfl⟩ := he
  rfl

lemma mcpPre_loop (b : Bool) (cr : Nat → Option (Option Nat × Option Nat))
    (srcs : List (Option (List (List String)))) (i : Nat) :
    ∀ e ∈ (srcLoop b cr i srcs).1, mcpPreEv e = true := by
  intro e he
  obtain ⟨j, rfl⟩ := srcLoop_events b cr srcs i e he
  rfl

lemma mcpPre_append {l1 l2 : List Ev} (h1 : ∀ e ∈ l1, mcpPreEv e = true)
    (h2 : ∀ e ∈ l2, mcpPreEv e = true) : ∀ e ∈ l1 ++ l2, mcpPreEv e = true := by
  intro e he
  rcases List.mem_append.mp he with h | h
  · exact h1 e h
  · exact h2 e h

lemma runMcp_shape (env : McpEnv) :
    ∃ pre tbl tot, (∀ e ∈ pre, mcpPreEv e = true) ∧
      (runMcp env = pre ++ [Ev.errorMsg] ∨
       runMcp env = pre ++ [Ev.writeMaster tbl, Ev.successMsg tot]) := by
  have hbread := mcpPre_readEvs env.sources.length
  cases hloop : srcLoop true env.classifyResp 0 env.sources with
  | mk loopTr r =>
    have hbloop : ∀ e ∈ loopTr, mcpPreEv e = true := by
      intro e he
      exact mcpPre_loop true env.classifyResp env.sources 0 e (by rw [hloop]; exact he)
    cases r with
    | none =>
      refine ⟨(List.range env.sources.length).map Ev.readSrc ++ loopTr, mkTable [], JSNum.nan,
        mcpPre_append hbread hbloop, Or.inl ?_⟩
      simp [runMcp, hloop]
    | some expenses =>
      cases hnorm : env.normalizeResp with
      | none =>
        refine ⟨(List.range env.sources.length).map Ev.readSrc ++ loopTr ++ [Ev.llmNormalize],
          mkTable [], JSNum.nan,
          mcpPre_append (mcpPre_append hbread hbloop)
            (by intro e he; simp at he; subst he; rfl),
          Or.inl ?_⟩
        simp [runMcp, hloop, hnorm]
      | some mp =>
        refine ⟨(List.range env.sources.length).map Ev.readSrc ++ loopTr ++ [Ev.llmNormalize],
          mkTable (sortByKey (entryKey env.numStr) (sumExpenses mp expenses)),
          totalOf (sumExpenses mp expenses),
          mcpPre_append (mcpPre_append hbread hbloop)
            (by intro e he; simp at he; subst he; rfl),
          Or.inr ?_⟩
        simp [runMcp, hloop, hnorm]

lemma not_mem_of_pred {p : Ev → Bool} {l : List Ev} (hall : ∀ e ∈ l, p e = true)
    {e : Ev} (hf : p e = false) : e ∉ l := by
  intro he
  rw [hall e he] at hf
  exact Bool.noConfusion hf

/-- C5 (amended): in the interactive script, whenever the master sheet holds
more than one row, any clear/write is preceded by the overwrite confirmation,
and declining leaves the master untouched while the total is still reported;
the tool-call handler, by contrast, never reads the master and never asks for
confirmation before its write. -/
theorem c5_overwrite_confirmation :
    (∀ (env : ScriptEnv) (t : List (List Cell)), 1 < env.masterData.length →
        Ev.writeMaster t ∈ runScript env →
        ∃ pre post, runScript env = pre ++ Ev.askOverwrite :: post ∧
          Ev.clearMaster ∉ pre ∧ (∀ u, Ev.writeMaster u ∉ pre) ∧ Ev.writeMaster t ∈ post) ∧
    (∀ env : ScriptEnv, 1 < env.masterData.length → jsToLower env.overwriteAnswer ≠ "y" →
        Ev.clearMaster ∉ runScript env ∧ (∀ u, Ev.writeMaster u ∉ runScript env) ∧
          (Ev.askOverwrite ∈ runScript env → ∃ tot, Ev.logTotal tot ∈ runScript env)) ∧
    (∀ env : McpEnv, Ev.askOverwrite ∉ runMcp env ∧ Ev.readMaster ∉ runMcp env) := by
  refine ⟨?_, ?_, ?_⟩
  · intro env t hm hw
    obtain ⟨pre, tbl, tot, hben, hdisj⟩ := runScript_shape env
    have hnw : ∀ u, Ev.writeMaster u ∉ pre := fun u => not_mem_of_pred hben rfl
    have hnc : Ev.clearMaster ∉ pre := not_mem_of_pred hben rfl
    rcases hdisj with h | h | ⟨_, _, h⟩ | ⟨hm2, hans, h⟩ | ⟨hm2, h⟩
    · rw [h] at hw
      rcases List.mem_append.mp hw with hw2 | hw2
      · exact absurd hw2 (hnw t)
      · simp at hw2
    · rw [h] at hw
      exact absurd hw (hnw t)
    · rw [h] at hw
      rcases List.mem_append.mp hw with hw2 | hw2
      · exact absurd hw2 (hnw t)
      · simp at hw2
    · have ht : t = tbl := by
        rw [h] at hw
        rcases List.mem_append.mp hw with hw2 | hw2
        · exact absurd hw2 (hnw t)
        · simpa using hw2
      refine ⟨pre, [Ev.clearMaster, Ev.writeMaster tbl, Ev.doneMsg, Ev.logTotal tot],
        by rw [h], hnc, hnw, ?_⟩
      rw [ht]
      simp
    · exact absurd hm hm2
  · intro env hm hans
    obtain ⟨pre, tbl, tot, hben, hdisj⟩ := runScript_shape env
    have hnw : ∀ u, Ev.writeMaster u ∉ pre := fun u => not_mem_of_pred hben rfl
    have hnc : Ev.clearMaster ∉ pre := not_mem_of_pred hben rfl
    have hna : Ev.askOverwrite ∉ pre := not_mem_of_pred hben rfl
    rcases hdisj with h | h | ⟨_, _, h⟩ | ⟨hm2, hans2, h⟩ | ⟨hm2, h⟩
    · refine ⟨?_, ?_, ?_⟩
      · rw [h]
        intro hc
        rcases List.mem_append.mp hc with h2 | h2
        · exact hnc h2
        · simp at h2
      · intro u
        rw [h]
        intro hc
        rcases List.mem_append.mp hc with h2 | h2
        · exact hnw u h2
        · simp at h2
      · rw [h]
        intro hask
        rcases List.mem_append.mp hask with h2 | h2
        · exact absurd h2 hna
        · simp at h2
    · refine ⟨?_, ?_, ?_⟩
      · rw [h]; exact hnc
      · intro u; rw [h]; exact hnw u
      · rw [h]; intro hask; exact absurd hask hna
    · refine ⟨?_, ?_, ?_⟩
      · rw [h]
        intro hc
        rcases List.mem_append.mp hc with h2 | h2
        · exact hnc h2
        · simp at h2
      · intro u
        rw [h]
        intro hc
        rcases List.mem_append.mp hc with h2 | h2
        · exact hnw u h2
        · simp at h2
      · intro _
        exact ⟨tot, by rw [h]; simp⟩
    · exact absurd hans2 hans
    · exact absurd hm hm2
  · intro env
    obtain ⟨pre, tbl, tot, hben, hdisj⟩ := runMcp_shape env
    have hna : Ev.askOverwrite ∉ pre := not_mem_of_pred hben rfl
    have hnr : Ev.readMaster ∉ pre := not_mem_of_pred hben rfl
    constructor
    · intro hc
      rcases hdisj with h | h <;> rw [h] at hc <;>
        rcases List.mem_append.mp hc with h2 | h2
      · exact hna h2
      · simp at h2
      · exact hna h2
      · simp at h2
    · intro hc
      rcases hdisj with h | h <;> rw [h] at hc <;>
        rcases List.mem_append.mp hc with h2 | h2
      · exact hnr h2
      · simp at h2
      · exact hnr h2
      · simp at h2

/-- C6 (amended): in the interactive script every write of the aggregate
table is immediately preceded by the clear of the full range; the tool-call
handler never clears at all, so its write can leave stale data beyond the new
table's extent. -/
theorem c6_clear_before_write :
    (∀ (env : ScriptEnv) (t : List (List Cell)), Ev.writeMaster t ∈ runScript env →
        ∃ p s, runScript env = p ++ Ev.clearMaster :: Ev.writeMaster t :: s) ∧
    (∀ env : McpEnv, Ev.clearMaster ∉ runMcp env) := by
  constructor
  · intro env t hw
    obtain ⟨pre, tbl, tot, hben, hdisj⟩ := runScript_shape env
    have hnw : ∀ u, Ev.writeMaster u ∉ pre := fun u => not_mem_of_pred hben rfl
    rcases hdisj with h | h | ⟨_, _, h⟩ | ⟨hm2, hans, h⟩ | ⟨hm2, h⟩
    · rw [h] at hw
      rcases List.mem_append.mp hw with hw2 | hw2
      · exact absurd hw2 (hnw t)
      · simp at hw2
    · rw [h] at hw
      exact absurd hw (hnw t)
    · rw [h] at hw
      rcases List.mem_append.mp hw with hw2 | hw2
      · exact absurd hw2 (hnw t)
      · simp at hw2
    · have ht : t = tbl := by
        rw [h] at hw
        rcases List.mem_append.mp hw with hw2 | hw2
        · exact absurd hw2 (hnw t)
        · simpa using hw2
      refine ⟨pre ++ [Ev.askOverwrite], [Ev.doneMsg, Ev.logTotal tot], ?_⟩
      rw [h, ht]
      simp
    · have ht : t = tbl := by
        rw [h] at hw
        rcases List.mem_append.mp hw with hw2 | hw2
        · exact absurd hw2 (hnw t)
        · simpa using hw2
      refine ⟨pre, [Ev.doneMsg, Ev.logTotal tot], ?_⟩
      rw [h, ht]
  · intro env
    obtain ⟨pre, tbl, tot, hben, hdisj⟩ := runMcp_shape env
    have hnc : Ev.clearMaster ∉ pre := not_mem_of_pred hben rfl
    intro hc
    rcases hdisj with h | h <;> rw [h] at hc <;>
      rcases List.mem_append.mp hc with h2 | h2
    · exact hnc h2
    · simp at h2
    · exact hnc h2
    · simp at h2

/-- A concrete tool call: one well-formed source, valid LLM responses. -/
def menvW : McpEnv :=
  ⟨[some [["Category", "Cost"], ["A", "1"]]], fun _ => some (some 0, some 1),
   some [], fun _ => ""⟩

/-- C5 counterexample to the claim as stated: the tool-call handler issues
its write with no confirmation request (and no read of the destination)
anywhere in the run, whatever the destination currently holds. -/
theorem c5_counterexample :
    Ev.writeMaster
        [[Cell.s "Category", Cell.s "Amount"], [Cell.s "A", Cell.n (JSNum.fin ⟨1, 0⟩)]] ∈
      runMcp menvW ∧
    Ev.askOverwrite ∉ runMcp menvW ∧ Ev.readMaster ∉ runMcp menvW := by decide

/-- C6 counterexample to the claim as stated: the tool-call handler issues a
write with no clear anywhere in the run. -/
theorem c6_counterexample :
    Ev.writeMaster
        [[Cell.s "Category", Cell.s "Amount"], [Cell.s "A", Cell.n (JSNum.fin ⟨1, 0⟩)]] ∈
      runMcp menvW ∧
    Ev.clearMaster ∉ runMcp menvW := by decide

/-- An interactive run against a master sheet holding two rows, declining
the overwrite. -/
def envC5decline : ScriptEnv :=
  ⟨false, [], fun _ => none, some [], "y", [[Cell.s "a"], [Cell.s "b"]], "n", fun _ => ""⟩

/-- The same interactive run but accepting the overwrite. -/
def envC5accept : ScriptEnv :=
  ⟨false, [], fun _ => none, some [], "y", [[Cell.s "a"], [Cell.s "b"]], "y", fun _ => ""⟩

theorem c5_overwrite_confirmation_witness :
    (Ev.clearMaster ∉ runScript envC5decline ∧
      (∀ u, Ev.writeMaster u ∉ runScript envC5decline) ∧
      (Ev.askOverwrite ∈ runScript envC5decline →
        ∃ tot, Ev.logTotal tot ∈ runScript envC5decline)) ∧
    ∃ pre post, runScript envC5accept = pre ++ Ev.askOverwrite :: post ∧
      Ev.clearMaster ∉ pre ∧ (∀ u, Ev.writeMaster u ∉ pre) ∧
      Ev.writeMaster (mkTable []) ∈ post :=
  ⟨c5_overwrite_confirmation.2.1 envC5decline (by decide) (by decide),
   c5_overwrite_confirmation.1 envC5accept (mkTable []) (by decide) (by decide)⟩

theorem c6_clear_before_write_witness :
    ∃ p s, runScript envC5accept = p ++ Ev.clearMaster :: Ev.writeMaster (mkTable []) :: s :=
  c6_clear_before_write.1 envC5accept (mkTable []) (by decide)

def isClassifyEv : Ev → Bool
  | Ev.llmClassify _ => true
  | _ => false

/-- Number of failure messages in a trace. -/
def countEvErr (tr : List Ev) : Nat := tr.countP (fun e => e == Ev.errorMsg)

/-- Number of classification LLM calls in a trace. -/
def countEvClassify (tr : List Ev) : Nat := tr.countP isClassifyEv

/-- Number of normalization LLM calls in a trace. -/
def countEvNorm (tr : List Ev) : Nat := tr.countP (fun e => e == Ev.llmNormalize)

lemma countP_readEvs (p : Ev → Bool) (hp : ∀ i, p (Ev.readSrc i) = false) (n : Nat) :
    ((List.range n).map Ev.readSrc).countP p = 0 := by
  apply List.countP_eq_zero.mpr
  intro e he
  simp only [List.mem_map] at he
  obtain ⟨i, _, rfl⟩ := he
  simp [hp i]

lemma countP_loop (p : Ev → Bool) (hp : ∀ i, p (Ev.llmClassify i) = false) (b : Bool)
    (cr : Nat → Option (Option Nat × Option Nat))
    (srcs : List (Option (List (List String)))) (i : Nat) :
    ((srcLoop b cr i srcs).1).countP p = 0 := by
  apply List.countP_eq_zero.mpr
  intro e he
  obtain ⟨j, rfl⟩ := srcLoop_events b cr srcs i e he
  simp [hp j]

lemma readEvs_no (e : Ev) (h : ∀ i, e ≠ Ev.readSrc i) (n : Nat) :
    e ∉ (List.range n).map Ev.readSrc := by
  intro hmem
  simp only [List.mem_map] at hmem
  obtain ⟨i, _, heq⟩ := hmem
  exact h i heq.symm

lemma loop_no (e : Ev) (h : ∀ i, e ≠ Ev.llmClassify i) (b : Bool)
    (cr : Nat → Option (Option Nat × Option Nat))
    (srcs : List (Option (List (List String)))) (i : Nat) :
    e ∉ (srcLoop b cr i srcs).1 := by
  intro hmem
  obtain ⟨j, heq⟩ := srcLoop_events b cr srcs i e hmem
  exact h j heq

lemma srcLoop_allFail (cr : Nat → Option (Option Nat × Option Nat))
    (hall : ∀ j, cr j = none) :
    ∀ (srcs : List (Option (List (List String)))) (i : Nat),
      (∃ rows, some rows ∈ srcs ∧ 1 < rows.length) →
      ∃ j, srcLoop true cr i srcs = ([Ev.llmClassify j], none) := by
  intro srcs
  induction srcs with
  | nil =>
    intro i hex
    obtain ⟨rows, hmem, _⟩ := hex
    simp at hmem
  | cons d rest ih =>
    intro i hex
    obtain ⟨rows, hmem, hlen⟩ := hex
    cases d with
    | none =>
      rw [srcLoop_cons_none]
      apply ih (i + 1)
      refine ⟨rows, ?_, hlen⟩
      rcases List.mem_cons.mp hmem with h | h
      · exact absurd h (by simp)
      · exact h
    | some rows0 =>
      by_cases hlen0 : 1 < rows0.length
      · exact ⟨i, srcLoop_cons_llm_fail cr i rows0 rest hlen0 (hall i)⟩
      · rw [srcLoop_cons_small true cr i rows0 rest hlen0]
        apply ih (i + 1)
        rcases List.mem_cons.mp hmem with h | h
        · simp only [Option.some_inj] at h
          subst h
          exact absurd hlen hlen0
        · exact ⟨rows, h, hlen⟩

/-- C7: when a language-model response (classification or normalization) is
not valid JSON, the whole run fails: exactly one failure message is produced,
the failing call is made exactly once (no retry), and nothing is cleared or
written — on both the interactive script and the tool-call handler. -/
theorem c7_llm_json_failure :
    (∀ (env : ScriptEnv) (loopTr : List Ev) (es : List (String × JSNum)),
        env.useLLM = true → env.normalizeResp = none →
        srcLoop true env.classifyResp 0 env.sources = (loopTr, some es) →
        countEvErr (runScript env) = 1 ∧ countEvNorm (runScript env) = 1 ∧
        Ev.clearMaster ∉ runScript env ∧ ∀ t, Ev.writeMaster t ∉ runScript env) ∧
    (∀ env : ScriptEnv, env.useLLM = true → (∀ j, env.classifyResp j = none) →
        (∃ rows, some rows ∈ env.sources ∧ 1 < rows.length) →
        countEvErr (runScript env) = 1 ∧ countEvClassify (runScript env) = 1 ∧
        Ev.clearMaster ∉ runScript env ∧ ∀ t, Ev.writeMaster t ∉ runScript env) ∧
    (∀ (env : McpEnv) (loopTr : List Ev) (es : List (String × JSNum)),
        env.normalizeResp = none →
        srcLoop true env.classifyResp 0 env.sources = (loopTr, some es) →
        countEvErr (runMcp env) = 1 ∧ countEvNorm (runMcp env) = 1 ∧
        ∀ t, Ev.writeMaster t ∉ runMcp env) ∧
    (∀ env : McpEnv, (∀ j, env.classifyResp j = none) →
        (∃ rows, some rows ∈ env.sources ∧ 1 < rows.length) →
        countEvErr (runMcp env) = 1 ∧ countEvClassify (runMcp env) = 1 ∧
        ∀ t, Ev.writeMaster t ∉ runMcp env) := by
  refine ⟨?_, ?_, ?_, ?_⟩
  · intro env loopTr es hu hnorm hloop
    have hfst : (srcLoop true env.classifyResp 0 env.sources).1 = loopTr := by rw [hloop]
    have htr : runScript env = (List.range env.sources.length).map Ev.readSrc ++ loopTr ++
        [Ev.llmNormalize, Ev.errorMsg] := by
      simp [runScript, hu, hloop, hnorm]
    refine ⟨?_, ?_, ?_, ?_⟩
    · rw [htr]
      unfold countEvErr
      rw [List.countP_append, List.countP_append,
        countP_readEvs _ (fun i => rfl) _]
      rw [← hfst, countP_loop _ (fun i => rfl)]
      rfl
    · rw [htr]
      unfold countEvNorm
      rw [List.countP_append, List.countP_append,
        countP_readEvs _ (fun i => rfl) _]
      rw [← hfst, countP_loop _ (fun i => rfl)]
      rfl
    · rw [htr]
      intro hc
      rcases List.mem_append.mp hc with h2 | h2
      · rcases List.mem_append.mp h2 with h3 | h3
        · exact readEvs_no _ (fun i => by simp) _ h3
        · rw [← hfst] at h3
          exact loop_no _ (fun i => by simp) _ _ _ _ h3
      · simp at h2
    · intro t
      rw [htr]
      intro hc
      rcases List.mem_append.mp hc with h2 | h2
      · rcases List.mem_append.mp h2 with h3 | h3
        · exact readEvs_no _ (fun i => by simp) _ h3
        · rw [← hfst] at h3
          exact loop_no _ (fun i => by simp) _ _ _ _ h3
      · simp at h2
  · intro env hu hall hex
    obtain ⟨j, hfail⟩ := srcLoop_allFail env.classifyResp hall env.sources 0 hex
    have htr : runScript env = (List.range env.sources.length).map Ev.readSrc ++
        [Ev.llmClassify j] ++ [Ev.errorMsg] := by
      simp [runScript, hu, hfail]
    refine ⟨?_, ?_, ?_, ?_⟩
    · rw [htr]
      unfold countEvErr
      rw [List.countP_append, List.countP_append,
        countP_readEvs _ (fun i => rfl) _]
      rfl
    · rw [htr]
      unfold countEvClassify
      rw [List.countP_append, List.countP_append,
        countP_readEvs _ (fun i => rfl) _]
      rfl
    · rw [htr]
      intro hc
      rcases List.mem_append.mp hc with h2 | h2
      · rcases List.mem_append.mp h2 with h3 | h3
        · exact readEvs_no _ (fun i => by simp) _ h3
        · simp at h3
      · simp at h2
    · intro t
      rw [htr]
      intro hc
      rcases List.mem_append.mp hc with h2 | h2
      · rcases List.mem_append.mp h2 with h3 | h3
        · exact readEvs_no _ (fun i => by simp) _ h3
        · simp at h3
      · simp at h2
  · intro env loopTr es hnorm hloop
    have hfst : (srcLoop true env.classifyResp 0 env.sources).1 = loopTr := by rw [hloop]
    have htr : runMcp env = (List.range env.sources.length).map Ev.readSrc ++ loopTr ++
        [Ev.llmNormalize, Ev.errorMsg] := by
      simp [runMcp, hloop, hnorm]
    refine ⟨?_, ?_, ?_⟩
    · rw [htr]
      unfold countEvErr
      rw [List.countP_append, List.countP_append,
        countP_readEvs _ (fun i => rfl) _]
      rw [← hfst, countP_loop _ (fun i => rfl)]
      rfl
    · rw [htr]
      unfold countEvNorm
      rw [List.countP_append, List.countP_append,
        countP_readEvs _ (fun i => rfl) _]
      rw [← hfst, countP_loop _ (fun i => rfl)]
      rfl
    · intro t
      rw [htr]
      intro hc
      rcases List.mem_append.mp hc with h2 | h2
      · rcases List.mem_append.mp h2 with h3 | h3
        · exact readEvs_no _ (fun i => by simp) _ h3
        · rw [← hfst] at h3
          exact loop_no _ (fun i => by simp) _ _ _ _ h3
      · simp at h2
  · intro env hall hex
    obtain ⟨j, hfail⟩ := srcLoop_allFail env.classifyResp hall env.sources 0 hex
    have htr : runMcp env = (List.range env.sources.length).map Ev.readSrc ++
        [Ev.llmClassify j] ++ [Ev.errorMsg] := by
      simp [runMcp, hfail]
    refine ⟨?_, ?_, ?_⟩
    · rw [htr]
      unfold countEvErr
      rw [List.countP_append, List.countP_append,
        countP_readEvs _ (fun i => rfl) _]
      rfl
    · rw [htr]
      unfold countEvClassify
      rw [List.countP_append, List.countP_append,
        countP_readEvs _ (fun i => rfl) _]
      rfl
    · intro t
      rw [htr]
      intro hc
      rcases List.mem_append.mp hc with h2 | h2
      · rcases List.mem_append.mp h2 with h3 | h3
        · exact readEvs_no _ (fun i => by simp) _ h3
        · simp at h3
      · simp at h2

/-- A script run whose normalization response is invalid JSON. -/
def envC7norm : ScriptEnv := ⟨true, [], fun _ => none, none, "", [], "", fun _ => ""⟩

/-- A script run whose classification response is invalid JSON. -/
def envC7cls : ScriptEnv :=
  ⟨true, [some [["H"], ["r"]]], fun _ => none, none, "", [], "", fun _ => ""⟩

/-- A tool call whose normalization response is invalid JSON. -/
def menvC7norm : McpEnv := ⟨[], fun _ => none, none, fun _ => ""⟩

/-- A tool call whose classification response is invalid JSON. -/
def menvC7cls : McpEnv := ⟨[some [["H"], ["r"]]], fun _ => none, none, fun _ => ""⟩

theorem c7_llm_json_failure_witness :
    countEvErr (runScript envC7norm) = 1 ∧
    countEvErr (runScript envC7cls) = 1 ∧
    countEvClassify (runScript envC7cls) = 1 ∧
    countEvErr (runMcp menvC7norm) = 1 ∧
    countEvErr (runMcp menvC7cls) = 1 :=
  ⟨(c7_llm_json_failure.1 envC7norm [] [] rfl rfl rfl).1,
   (c7_llm_json_failure.2.1 envC7cls rfl (fun j => rfl)
      ⟨[["H"], ["r"]], by decide, by decide⟩).1,
   (c7_llm_json_failure.2.1 envC7cls rfl (fun j => rfl)
      ⟨[["H"], ["r"]], by decide, by decide⟩).2.1,
   (c7_llm_json_failure.2.2.1 menvC7norm [] [] rfl rfl).1,
   (c7_llm_json_failure.2.2.2 menvC7cls (fun j => rfl)
      ⟨[["H"], ["r"]], by decide, by decide⟩).1⟩
